import Mathlib

/-!
# Verification of the `@6pm/depend` dependency-injection container

Shallow embedding of the resolution and construction engine of the
`@6pm/depend` library (`lib/module.js`, `lib/proto.js`, `lib/builder.js`,
`lib/container.js`) and proofs about its documented behaviour.

Conventions of the embedding:
* JS constructor functions (types) are identified by natural numbers (`Ty`);
  property / method keys are strings (`Key`).
* JS `Map`s are modelled as association lists with first-match lookup and
  replace-on-set semantics.
* Loops and recursions of the source that JavaScript does not bound
  (the binding-resolution `while` loop, the recursive validation walk,
  recursive construction of dependencies) are given an explicit fuel
  parameter; a result of `none` means the computation did not finish
  within the given fuel, and `(∀ fuel, … = none)` expresses divergence.
* The asynchronous construction lifecycle compiled by `CodeBuilder.typeBuilder`
  is modelled as a deterministic event-trace semantics: each stage that may
  return a promise is abstracted by a `Behavior` (synchronous value,
  synchronous throw, fulfilled promise, rejected promise), and running the
  compiled procedure yields the list of observable events together with the
  overall outcome.
-/

namespace Depend

/-- JS constructor functions (types) are identified by naturals. -/
abbrev Ty := Nat

/-- Property / method keys (JS strings or symbols). -/
abbrev Key := String

/-- Error outcomes raised by the library, by site. -/
inductive Err where
  /-- `'X' is abstract, and cannot be instantiated` (compiled build procedure). -/
  | abstractInstantiation (t : Ty)
  /-- `Circular dependency discovered: …` (`BoundContainer.validate`). -/
  | circularDependency (origins : List String) (offender : Ty)
  /-- `Can only specify one injection per constructor` (`Module.declareInject`). -/
  | duplicateConstructorInjection
  /-- `Can only specify one parameter for property injection` (`Module.declareInject`). -/
  | multiParameterPropertyInjection
  /-- `Only classes or methods can be declared abstract` (`Module.declareAbstract`). -/
  | invalidAbstractTarget
  /-- `Can only declare methods 'init'` (`Module.declareInit`). -/
  | invalidInitTarget
  /-- `Classes may only have one 'init' method.` (`Module.declareInit`). -/
  | duplicateInit
  /-- A user-level rejection / throw, carried by id. -/
  | user (e : Nat)
deriving DecidableEq, Repr

/-- A Definition Tree: the shape of one injection point's requirement.
`tref` is a constructible type leaf, `arr` an ordered list (JS array
literal), `obj` a keyed map (JS object literal). -/
inductive Defn where
  | tref (t : Ty)
  | arr (l : List Defn)
  | obj (l : List (Key × Defn))
deriving Repr

/-- One entry of `DependencyData.injects`: `{ key, definition, method }`
as pushed by `Module.declareInject`. -/
structure InjectEntry where
  key : Key
  definition : Defn
  method : Bool
deriving Repr

/-- Per-type metadata record (`DependencyData` in `lib/module.js`). -/
structure DependencyData where
  injects : List InjectEntry := []
  construct : Option (List Defn) := none
  init : Option Key := none
  abstract : Bool := false
  singleton : Bool := false
deriving Repr

instance : Inhabited DependencyData := ⟨{}⟩

/-- The metadata lookup view of a `Module` store: `Module.getData`. -/
abbrev GetData := Ty → Option DependencyData

/-- The binding table of a `BoundContainer` (`this[BINDING] : Map`),
viewed as its lookup function `Map.get`. -/
abbrev BindingMap := Ty → Option Ty

/-- `BoundContainer.resolve(type)`:
`let last = type; while(type = this[BINDING].get(last)) { last = type; } return last;`
with fuel bounding the number of loop iterations; `none` means the loop
did not terminate within the given fuel. -/
def resolveFuel (binding : BindingMap) : Nat → Ty → Option Ty
  | fuel, last =>
    match binding last with
    | none => some last
    | some next =>
      match fuel with
      | 0 => none
      | fuel + 1 => resolveFuel binding fuel next

/-- Follow exactly `n` redirections of the binding table. -/
def stepN (binding : BindingMap) : Nat → Ty → Option Ty
  | 0, t => some t
  | n + 1, t => (binding t).bind (stepN binding n)

/-! ## Type hierarchy walk (`lib/proto.js`)

`constructorChain(constructor)` pushes the constructor itself, then walks
`Object.getPrototypeOf(constructor.prototype).constructor` upward, stopping
at `Object` (or a missing parent).  The host hierarchy is modelled by
`parentOf : Ty → Option Ty` (`none` at the root, covering the
`constructor === Object` break), and the walk carries fuel; JavaScript
prototype chains are finite and acyclic, so for any real hierarchy a
sufficiently large fuel makes the model exact. -/

/-- `constructorChain` of `lib/proto.js`: the type itself first, then its
ancestors, most derived first. -/
def constructorChain (parentOf : Ty → Option Ty) : Nat → Ty → List Ty
  | 0, c => [c]
  | fuel + 1, c =>
    c :: (match parentOf c with
      | none => []
      | some p => constructorChain parentOf fuel p)

/-! ## The injection sequence compiled by `CodeBuilder.injectBuilder`

`injectBuilder` iterates `constructorChain(type)` (most derived first) and,
per constructor, its declared `data.injects` in order, skipping any key
already claimed by a more derived constructor
(`if (properties[key]) continue; properties[key] = true`).  The emitted
injection statements execute in exactly this order.  The same
chain-plus-seen-keys walk is performed by `validateInjects` inside
`BoundContainer.validate`. -/

/-- Inner loop of `injectBuilder` over one constructor's `data.injects`,
threading the set of already-claimed keys; elements are paired with the
declaring constructor `c`. -/
def mergeOwn (c : Ty) : List Key → List InjectEntry → List Key × List (Ty × InjectEntry)
  | seen, [] => (seen, [])
  | seen, e :: rest =>
    if e.key ∈ seen then mergeOwn c seen rest
    else
      let (seen', out) := mergeOwn c (e.key :: seen) rest
      (seen', (c, e) :: out)

/-- Outer loop of `injectBuilder` over the constructor chain. -/
def mergedInjectsFrom (getData : GetData) : List Key → List Ty → List (Ty × InjectEntry)
  | _, [] => []
  | seen, c :: rest =>
    match getData c with
    | none => mergedInjectsFrom getData seen rest
    | some data =>
      let (seen', out) := mergeOwn c seen data.injects
      out ++ mergedInjectsFrom getData seen' rest

/-- The ordered sequence of injection statements `injectBuilder` emits for a
type whose constructor chain is `chain`, each paired with the constructor
that declared it. -/
def mergedInjects (getData : GetData) (chain : List Ty) : List (Ty × InjectEntry) :=
  mergedInjectsFrom getData [] chain

/-! ## Metadata store (`lib/module.js`) -/

/-- JS `Map.set` on an association list: replace in place, else append
(insertion order preserved, as a JS `Map` does). -/
def mapSet : List (Ty × DependencyData) → Ty → DependencyData → List (Ty × DependencyData)
  | [], t, d => [(t, d)]
  | (t', d') :: rest, t, d =>
    if t' = t then (t', d) :: rest else (t', d') :: mapSet rest t d

/-- The state of a `Module` instance: its `data : Map` of per-type records. -/
structure ModuleState where
  data : List (Ty × DependencyData) := []
deriving Repr

/-- `Module.getData(type)`. -/
def ModuleState.getData (st : ModuleState) (t : Ty) : Option DependencyData :=
  st.data.lookup t

/-- Write a record back, `Map.set` semantics. -/
def ModuleState.set (st : ModuleState) (t : Ty) (d : DependencyData) : ModuleState :=
  ⟨mapSet st.data t d⟩

/-- `Module.createData(type, properties)`: insert a fresh default record if
absent, then `Object.assign` the given property updates onto it.  Returns
the (assigned) record together with the new store state. -/
def createData (st : ModuleState) (t : Ty) (assign : DependencyData → DependencyData) :
    DependencyData × ModuleState :=
  let d := assign ((st.getData t).getD {})
  (d, st.set t d)

/-- The host-environment facts the store consults:
`protoFn t k` models `t.prototype[k] && t.prototype[k] instanceof Function`. -/
structure ProtoEnv where
  protoFn : Ty → Key → Bool

/-- Result of one declaration call: the error if it threw, the store state
after the call (mutations before a throw persist), and the `Module.UPDATE`
events emitted during the call, in order. -/
structure DeclResult where
  error : Option Err
  state : ModuleState
  events : List Ty
deriving Repr

/-- `Module.declareInject(type, key, injects)`. -/
def declareInject (env : ProtoEnv) (st : ModuleState) (t : Ty) (key : Option Key)
    (injects : List Defn) : DeclResult :=
  match key with
  | none =>
    -- constructor injection: record is created before the duplicate check
    let (d, st₁) := createData st t id
    if d.construct.isSome then
      ⟨some .duplicateConstructorInjection, st₁, []⟩
    else
      ⟨none, st₁.set t { d with construct := some injects }, [t]⟩
  | some k =>
    if env.protoFn t k then
      -- setter-method injection: the whole argument list is the definition
      let (d, st₁) := createData st t id
      ⟨none, st₁.set t { d with injects := d.injects ++ [⟨k, .arr injects, true⟩] }, [t]⟩
    else if injects.length > 1 then
      -- property injection: arity check happens before record creation
      ⟨some .multiParameterPropertyInjection, st, []⟩
    else
      let (d, st₁) := createData st t id
      -- JS stores `injects[0]`; declarations always supply one definition here
      ⟨none, st₁.set t
        { d with injects := d.injects ++ [⟨k, injects.headD (.arr []), false⟩] }, [t]⟩

/-- `Module.declareAbstract(type, key)`.  The record is created and marked
abstract *before* the method-target check; the method-key branch returns
without emitting `Module.UPDATE`. -/
def declareAbstract (env : ProtoEnv) (st : ModuleState) (t : Ty) (key : Option Key) :
    DeclResult :=
  let (_, st₁) := createData st t (fun d => { d with abstract := true })
  match key with
  | some k =>
    if ¬ env.protoFn t k then
      ⟨some .invalidAbstractTarget, st₁, []⟩
    else
      -- replaces `t.prototype[k]` with a throwing function (still a Function)
      -- and returns the descriptor — before the trailing emit is reached
      ⟨none, st₁, []⟩
  | none => ⟨none, st₁, [t]⟩

/-- `Module.declareSingleton(type)`. -/
def declareSingleton (st : ModuleState) (t : Ty) : DeclResult :=
  let (_, st₁) := createData st t (fun d => { d with singleton := true })
  ⟨none, st₁, [t]⟩

/-- `Module.declareInit(type, key)`. -/
def declareInit (env : ProtoEnv) (st : ModuleState) (t : Ty) (k : Key) : DeclResult :=
  let (d, st₁) := createData st t id
  if ¬ env.protoFn t k then
    ⟨some .invalidInitTarget, st₁, []⟩
  else if d.init.isSome then
    ⟨some .duplicateInit, st₁, []⟩
  else
    ⟨none, st₁.set t { d with init := some k }, [t]⟩

/-- What a `BoundContainer` attached to the store does per `Module.UPDATE`
event: `module.on(Module.UPDATE, (type) => { this.validate(type);
this[BUILDER].build(type); })`. -/
inductive ContainerAction where
  | validate (t : Ty)
  | build (t : Ty)
deriving DecidableEq, Repr

/-- The re-validation / recompilation actions one attached container runs in
response to the events emitted by a declaration call. -/
def updateReactions (events : List Ty) : List ContainerAction :=
  events.flatMap fun t => [.validate t, .build t]

/-! ## The validation walk (`Stack` and `BoundContainer.validate`)

The `Stack` keeps a `Set` of values and an array of origin strings.
`push(type, origin)` adds the *type* to the set and appends the *origin
string* to the array; `pop()` runs `this.set.delete(this.stack.pop())`,
i.e. it deletes the popped *origin string* from the set.  A JS `Set` can
hold both functions and strings, so we model its elements as a sum; the
origin strings deleted by `pop` are never elements (only types are ever
added), so the set of types only ever grows during one `validate` call. -/

/-- A value held in the `Stack`'s `Set`: a constructor function or an
origin string. -/
inductive JVal where
  | ty (t : Ty)
  | str (s : String)
deriving DecidableEq, Repr

/-- The `Stack` of `lib/container.js`. -/
structure VStack where
  set : List JVal := []
  stack : List String := []
deriving Repr

/-- `Stack.push(type, origin)`. -/
def VStack.push (s : VStack) (t : Ty) (origin : String) : VStack :=
  ⟨if JVal.ty t ∈ s.set then s.set else s.set ++ [JVal.ty t], s.stack ++ [origin]⟩

/-- `Stack.pop()`: `this.set.delete(this.stack.pop())`.  `Array.pop`
removes and yields the last origin string; deleting it from the set of
types never removes a type. -/
def VStack.pop (s : VStack) : VStack :=
  match s.stack.getLast? with
  | none => s
  | some origin => ⟨s.set.erase (JVal.str origin), s.stack.dropLast⟩

/-- `Stack.has(type)`. -/
def VStack.has (s : VStack) (t : Ty) : Bool :=
  JVal.ty t ∈ s.set

/-- `Stack.origins()`. -/
def VStack.origins (s : VStack) : List String :=
  s.stack

/-- Model of `type.name`. -/
def tyName (t : Ty) : String :=
  toString t

/-- The environment a `BoundContainer` validates against: the metadata
store view, the binding table, and the host hierarchy. -/
structure VEnv where
  getData : GetData
  binding : BindingMap
  parentOf : Ty → Option Ty

mutual

/-- `validateType` closure of `BoundContainer.validate`: resolve, check the
stack, walk the constructor Definition Tree (pushing / popping around it),
then the inherited injection points.  Every recursive call spends one unit
of fuel; `none` means the walk did not complete within the fuel (the only
source of true divergence is the binding-resolution loop). -/
def validateType (env : VEnv) : Nat → VStack → Ty → Option (Except Err VStack)
  | 0, _, _ => none
  | fuel + 1, stack, t =>
    match resolveFuel env.binding (fuel + 1) t with
    | none => none
    | some resolved =>
      if stack.has resolved then
        some (.error (.circularDependency stack.origins t))
      else
        let data := (env.getData t).getD {}
        match data.construct with
        | some construct =>
          let stack₁ := stack.push t (tyName t ++ "(constructor)")
          match walkArray env fuel stack₁ construct with
          | none => none
          | some (.error e) => some (.error e)
          | some (.ok stack₂) =>
            validateInjectsChain env fuel stack₂.pop t []
              (constructorChain env.parentOf fuel t)
        | none =>
          validateInjectsChain env fuel stack t []
            (constructorChain env.parentOf fuel t)

/-- Outer loop of the `validateInjects` closure, over the prototype chain
of the validated type, threading the `properties` seen-key set. -/
def validateInjectsChain (env : VEnv) :
    Nat → VStack → Ty → List Key → List Ty → Option (Except Err VStack)
  | 0, _, _, _, _ => none
  | _ + 1, stack, _, _, [] => some (.ok stack)
  | fuel + 1, stack, t, seen, c :: rest =>
    match env.getData c with
    | none => validateInjectsChain env fuel stack t seen rest
    | some data =>
      match validateInjectsEntries env fuel stack t seen data.injects with
      | none => none
      | some (.error e) => some (.error e)
      | some (.ok (stack', seen')) =>
        validateInjectsChain env fuel stack' t seen' rest

/-- Inner loop of `validateInjects` over one constructor's declared
injections: skip overridden keys, push an origin frame for the *validated*
type, walk the definition, pop. -/
def validateInjectsEntries (env : VEnv) :
    Nat → VStack → Ty → List Key → List InjectEntry →
      Option (Except Err (VStack × List Key))
  | 0, _, _, _, _ => none
  | _ + 1, stack, _, seen, [] => some (.ok (stack, seen))
  | fuel + 1, stack, t, seen, e :: rest =>
    if e.key ∈ seen then
      validateInjectsEntries env fuel stack t seen rest
    else
      let stack₁ := stack.push t
        (tyName t ++ "." ++ e.key ++ (if e.method then "()" else ""))
      match validateDefn env fuel stack₁ e.definition with
      | none => none
      | some (.error err) => some (.error err)
      | some (.ok stack₂) =>
        validateInjectsEntries env fuel stack₂.pop t (e.key :: seen) rest

/-- `validateDefinition` closure: arrays element-wise, non-constructible
objects entry-wise, constructible leaves via `validateType`. -/
def validateDefn (env : VEnv) : Nat → VStack → Defn → Option (Except Err VStack)
  | 0, _, _ => none
  | fuel + 1, stack, .arr l => walkArray env fuel stack l
  | fuel + 1, stack, .obj l => walkObject env fuel stack l
  | fuel + 1, stack, .tref t => validateType env fuel stack t

/-- `walkArray` closure: validate each element in order. -/
def walkArray (env : VEnv) : Nat → VStack → List Defn → Option (Except Err VStack)
  | 0, _, _ => none
  | _ + 1, stack, [] => some (.ok stack)
  | fuel + 1, stack, d :: rest =>
    match validateDefn env fuel stack d with
    | none => none
    | some (.error e) => some (.error e)
    | some (.ok stack') => walkArray env fuel stack' rest

/-- `walkObject` closure: validate each own-property value in order. -/
def walkObject (env : VEnv) : Nat → VStack → List (Key × Defn) → Option (Except Err VStack)
  | 0, _, _ => none
  | _ + 1, stack, [] => some (.ok stack)
  | fuel + 1, stack, (_, d) :: rest =>
    match validateDefn env fuel stack d with
    | none => none
    | some (.error e) => some (.error e)
    | some (.ok stack') => walkObject env fuel stack' rest

end

/-- `BoundContainer.validate(type)`: run the walk from a fresh `Stack`. -/
def validate (env : VEnv) (fuel : Nat) (t : Ty) : Option (Except Err Unit) :=
  match validateType env fuel ⟨[], []⟩ t with
  | none => none
  | some (.error e) => some (.error e)
  | some (.ok _) => some (.ok ())

/-- Functional update of the binding table: `this[BINDING].set(type, impl)`. -/
def bindingSet (binding : BindingMap) (t impl : Ty) : BindingMap :=
  fun x => if x = t then some impl else binding x

/-- `BoundContainer.bind(type, implementation)`: record the redirection,
then validate the implementation.  (On success the source then recompiles
`type`'s procedure and returns `this`; the recompilation step is not
modelled — no claim depends on it, and divergence or errors surface inside
`validate` first.) -/
def bindFuel (env : VEnv) (fuel : Nat) (t impl : Ty) : Option (Except Err VEnv) :=
  let env' := { env with binding := bindingSet env.binding t impl }
  match validate env' fuel impl with
  | none => none
  | some (.error e) => some (.error e)
  | some (.ok _) => some (.ok env')

/-! ## The asynchronous construction lifecycle (`CodeBuilder.typeBuilder`)

The generated factory body is straight-line code with three suspension
points: the constructor value (`instance.then`), the joint wait on setter
promises (`Promise.all(promises).then`), and the init result
(`result.then`).  We abstract the dynamic outcome of each such stage by a
`Behavior` and give the generated code a deterministic trace semantics:
`runBuild` yields the ordered list of observable events together with the
overall outcome of the `create` call (`Except.error` covering both a
synchronous throw and a rejection of the returned promise). -/

/-- The dynamic result of one lifecycle stage. -/
inductive Behavior where
  /-- returns a plain (non-thenable) value -/
  | sync
  /-- throws synchronously -/
  | syncThrow (e : Nat)
  /-- returns a thenable that later fulfils -/
  | deferOk
  /-- returns a thenable that later rejects -/
  | deferErr (e : Nat)
deriving DecidableEq, Repr

/-- Observable events of one run of a compiled construction procedure. -/
inductive Ev where
  /-- `new Type(…)` invoked -/
  | ctorCall
  /-- the constructor value is available (synchronously, or its promise fulfilled) -/
  | ctorSettled
  /-- property injection point assigned -/
  | injectProp (k : Key)
  /-- setter-method injection point invoked -/
  | injectCall (k : Key)
  /-- that setter's promise fulfilled (observed by `Promise.all`) -/
  | injectSettled (k : Key)
  /-- init method invoked -/
  | initCall
  /-- the init method's promise fulfilled -/
  | initSettled
  /-- singleton replacement executed: `type[BUILD] = function() { return instance; }` -/
  | pin
  /-- the instance delivered as the overall result of `create` -/
  | deliver
deriving DecidableEq, Repr

/-- One injection point of the compiled injection sequence, together with
its dynamic behavior (`behavior` is the setter invocation's result for
`method = true`; property assignments are always synchronous). -/
structure InjectStage where
  key : Key
  method : Bool
  behavior : Behavior := .sync
deriving DecidableEq, Repr

/-- The inputs of one compiled construction procedure: the metadata facts
`typeBuilder` compiled in (`abstract`, injection sequence, `init`,
`singleton`) and the dynamic behavior of each stage. -/
structure LifecycleSpec where
  ty : Ty := 0
  abstract : Bool := false
  ctorB : Behavior := .sync
  injects : List InjectStage := []
  hasInit : Bool := false
  initB : Behavior := .sync
  singleton : Bool := false
deriving Repr

/-- The injection statement loop of the generated body: property points
assign synchronously; method points are invoked, and a thenable result is
pushed onto `promises` (`if (result && result.then) { promises.push(result); }`).
A synchronous throw aborts the body.  Returns the events and either the
collected `promises` array or the thrown error. -/
def runInjectLoop : List InjectStage → List Ev × Except Err (List (Key × Behavior))
  | [] => ([], .ok [])
  | st :: rest =>
    if st.method then
      match st.behavior with
      | .syncThrow e => ([.injectCall st.key], .error (.user e))
      | .sync =>
        let (evs, r) := runInjectLoop rest
        (.injectCall st.key :: evs, r)
      | .deferOk =>
        let (evs, r) := runInjectLoop rest
        (.injectCall st.key :: evs, r.map ((st.key, .deferOk) :: ·))
      | .deferErr e =>
        let (evs, r) := runInjectLoop rest
        (.injectCall st.key :: evs, r.map ((st.key, .deferErr e) :: ·))
    else
      let (evs, r) := runInjectLoop rest
      (.injectProp st.key :: evs, r)

/-- `Promise.all(promises)`: every pushed promise must fulfil before the
continuation runs; a rejection short-circuits with that rejection (the
first rejecting promise, in push order, in this deterministic model). -/
def runJoin : List (Key × Behavior) → List Ev × Except Err Unit
  | [] => ([], .ok ())
  | (k, .deferOk) :: rest =>
    let (evs, r) := runJoin rest
    (.injectSettled k :: evs, r)
  | (_, .deferErr e) :: _ => ([], .error (.user e))
  | (_, _) :: rest => runJoin rest

/-- The tail of the generated body, reached after all collected promises
fulfilled:
`let result = <init call or false>; <singleton replacement>; return (result && result.then) ? result.then(…) : instance;`
Note the singleton replacement line sits between the init *invocation* and
the wait on its result. -/
def runAfter (s : LifecycleSpec) : List Ev × Except Err Unit :=
  let pinEvs : List Ev := if s.singleton then [.pin] else []
  if s.hasInit then
    match s.initB with
    | .syncThrow e => ([.initCall], .error (.user e))
    | .sync => ([.initCall] ++ pinEvs ++ [.deliver], .ok ())
    | .deferOk => ([.initCall] ++ pinEvs ++ [.initSettled, .deliver], .ok ())
    | .deferErr e => ([.initCall] ++ pinEvs, .error (.user e))
  else
    -- `init` compiles to the literal `false`, which is not thenable
    (pinEvs ++ [.deliver], .ok ())

/-- The body run on an available instance: injection loop, joint wait on the
collected promises (skipped when none were pushed — same observable
events), then the tail. -/
def runRest (s : LifecycleSpec) : List Ev × Except Err Unit :=
  let (evs, r) := runInjectLoop s.injects
  match r with
  | .error e => (evs, .error e)
  | .ok pushed =>
    let (jevs, jr) := runJoin pushed
    match jr with
    | .error e => (evs ++ jevs, .error e)
    | .ok _ =>
      let (aevs, ar) := runAfter s
      (evs ++ jevs ++ aevs, ar)

/-- One invocation of the compiled construction procedure
(`type[BUILD]()`); for an abstract type the procedure is
`function() { throw new Error('… is abstract …'); }` and nothing else
runs.  Otherwise `new Type(…)` is invoked; if its value is thenable the
rest of the body runs in its `then` callback (never, on rejection),
otherwise the rest runs synchronously — the generated source duplicates
the identical rest block in both branches. -/
def runBuild (s : LifecycleSpec) : List Ev × Except Err Unit :=
  if s.abstract then
    ([], .error (.abstractInstantiation s.ty))
  else
    match s.ctorB with
    | .syncThrow e => ([.ctorCall], .error (.user e))
    | .deferErr e => ([.ctorCall], .error (.user e))
    | .sync =>
      let (evs, r) := runRest s
      (.ctorCall :: .ctorSettled :: evs, r)
    | .deferOk =>
      let (evs, r) := runRest s
      (.ctorCall :: .ctorSettled :: evs, r)

/-- The compiled injection sequence of a type with constructor chain
`chain`, with each point's dynamic behavior supplied by `beh`. -/
def injectStagesOf (getData : GetData) (chain : List Ty) (beh : Ty → Key → Behavior) :
    List InjectStage :=
  (mergedInjects getData chain).map fun p => ⟨p.2.key, p.2.method, beh p.1 p.2.key⟩

/-! ## Recursive construction of the object graph

Structural (synchronous) view of the compiled procedures, for reachability
and error propagation across dependencies: a `TypeRef` leaf of a
Definition Tree compiles to an invocation of the referenced type's own
build procedure (`anyBuilder` resolves the leaf through the binding table
and emits `resolved[BUILD]()`), arrays and object literals materialize
element-wise.  `constructType` models invoking the compiled procedure of a
type: resolve, fail if the resolved metadata is abstract, materialize the
constructor arguments, invoke the constructor, materialize and perform the
injection points, return the instance.  The returned `List Ty` logs the
constructors actually invoked, in order; the `Option` is `none` when the
fuel ran out (binding-resolution divergence). -/

/-- A constructed runtime value. -/
inductive Value where
  | obj (t : Ty)
  | arr (l : List Value)
  | map (l : List (Key × Value))
deriving Repr

mutual

/-- Invoke the compiled build procedure for `t` (as `create(t)` does for a
type known to the container). -/
def constructType (env : VEnv) : Nat → Ty → List Ty × Option (Except Err Value)
  | 0, _ => ([], none)
  | fuel + 1, t =>
    match resolveFuel env.binding (fuel + 1) t with
    | none => ([], none)
    | some r =>
      let data := (env.getData r).getD {}
      if data.abstract then
        -- the compiled procedure is `function() { throw new Error('… is abstract …') }`
        ([], some (.error (.abstractInstantiation r)))
      else
        match data.construct with
        | some construct =>
          match materializeList env fuel construct with
          | (log, none) => (log, none)
          | (log, some (.error e)) => (log, some (.error e))
          | (log, some (.ok _)) =>
            let (log', res) := constructInjects env fuel
              (mergedInjects env.getData (constructorChain env.parentOf fuel r))
            match res with
            | none => (log ++ [r] ++ log', none)
            | some (.error e) => (log ++ [r] ++ log', some (.error e))
            | some (.ok _) => (log ++ [r] ++ log', some (.ok (.obj r)))
        | none =>
          let (log', res) := constructInjects env fuel
            (mergedInjects env.getData (constructorChain env.parentOf fuel r))
          match res with
          | none => ([r] ++ log', none)
          | some (.error e) => ([r] ++ log', some (.error e))
          | some (.ok _) => ([r] ++ log', some (.ok (.obj r)))

/-- Materialize one Definition Tree node (`anyBuilder`). -/
def materializeDefn (env : VEnv) : Nat → Defn → List Ty × Option (Except Err Value)
  | 0, _ => ([], none)
  | fuel + 1, .tref t => constructType env fuel t
  | fuel + 1, .arr l =>
    match materializeList env fuel l with
    | (log, none) => (log, none)
    | (log, some (.error e)) => (log, some (.error e))
    | (log, some (.ok vs)) => (log, some (.ok (.arr vs)))
  | fuel + 1, .obj l =>
    match materializeObj env fuel l with
    | (log, none) => (log, none)
    | (log, some (.error e)) => (log, some (.error e))
    | (log, some (.ok vs)) => (log, some (.ok (.map vs)))

/-- Materialize the elements of an array shape in order (`arrayBuilder`);
the first throw aborts the rest. -/
def materializeList (env : VEnv) : Nat → List Defn → List Ty × Option (Except Err (List Value))
  | 0, _ => ([], none)
  | _ + 1, [] => ([], some (.ok []))
  | fuel + 1, d :: rest =>
    match materializeDefn env fuel d with
    | (log, none) => (log, none)
    | (log, some (.error e)) => (log, some (.error e))
    | (log, some (.ok v)) =>
      match materializeList env fuel rest with
      | (log', none) => (log ++ log', none)
      | (log', some (.error e)) => (log ++ log', some (.error e))
      | (log', some (.ok vs)) => (log ++ log', some (.ok (v :: vs)))

/-- Materialize the entries of an object shape in order (`objectBuilder`). -/
def materializeObj (env : VEnv) :
    Nat → List (Key × Defn) → List Ty × Option (Except Err (List (Key × Value)))
  | 0, _ => ([], none)
  | _ + 1, [] => ([], some (.ok []))
  | fuel + 1, (k, d) :: rest =>
    match materializeDefn env fuel d with
    | (log, none) => (log, none)
    | (log, some (.error e)) => (log, some (.error e))
    | (log, some (.ok v)) =>
      match materializeObj env fuel rest with
      | (log', none) => (log ++ log', none)
      | (log', some (.error e)) => (log ++ log', some (.error e))
      | (log', some (.ok vs)) => (log ++ log', some (.ok ((k, v) :: vs)))

/-- Perform the compiled injection points in emission order, materializing
each point's Definition Tree. -/
def constructInjects (env : VEnv) :
    Nat → List (Ty × InjectEntry) → List Ty × Option (Except Err Unit)
  | 0, _ => ([], none)
  | _ + 1, [] => ([], some (.ok ()))
  | fuel + 1, (_, e) :: rest =>
    match materializeDefn env fuel e.definition with
    | (log, none) => (log, none)
    | (log, some (.error err)) => (log, some (.error err))
    | (log, some (.ok _)) =>
      match constructInjects env fuel rest with
      | (log', none) => (log ++ log', none)
      | (log', some (.error err)) => (log ++ log', some (.error err))
      | (log', some (.ok _)) => (log ++ log', some (.ok ()))

end

/-! ## Auxiliary definitions used to state the properties -/

/-- `BoundContainer.resolve` in state-passing form: it only reads
`this[BINDING]`, so the container state comes back unchanged. -/
def resolveOp (env : VEnv) (fuel : Nat) (t : Ty) : Option Ty × VEnv :=
  (resolveFuel env.binding fuel t, env)

/-- Is this behavior a synchronous throw? -/
def isSyncThrowB : Behavior → Bool
  | .syncThrow _ => true
  | _ => false

/-- Is this behavior a rejecting thenable? -/
def isDeferErrB : Behavior → Bool
  | .deferErr _ => true
  | _ => false

/-- Events that begin an injection point (property assignment or setter
invocation). -/
def isInjectBeginEv : Ev → Bool
  | .injectProp _ => true
  | .injectCall _ => true
  | _ => false

/-- Events that observe a setter promise fulfilling. -/
def isInjectSettledEv : Ev → Bool
  | .injectSettled _ => true
  | _ => false

/-- Is this event the singleton replacement? -/
def isPinEv : Ev → Bool
  | .pin => true
  | _ => false

/-- Is this event the init invocation? -/
def isInitCallEv : Ev → Bool
  | .initCall => true
  | _ => false

/-- Is this event the fulfilment of the init promise? -/
def isInitSettledEv : Ev → Bool
  | .initSettled => true
  | _ => false

/-- The `promises` array collected by the injection loop when no setter
throws synchronously: the thenable results of the method points, in order. -/
def pushedOf (l : List InjectStage) : List (Key × Behavior) :=
  l.filterMap fun st =>
    if st.method then
      match st.behavior with
      | .deferOk => some (st.key, .deferOk)
      | .deferErr e => some (st.key, .deferErr e)
      | _ => none
    else none

/-- No setter of the injection sequence throws synchronously (the loop
completes). -/
def loopOk (l : List InjectStage) : Bool :=
  l.all fun st => !st.method || !isSyncThrowB st.behavior

/-- The construction reaches the singleton-replacement line: not abstract,
the constructor value arrives, the injection loop completes, every pushed
setter promise fulfils, and — when an init is declared — its invocation
does not throw synchronously. -/
def pinReached (s : LifecycleSpec) : Bool :=
  !s.abstract &&
  (s.ctorB == .sync || s.ctorB == .deferOk) &&
  loopOk s.injects &&
  !(s.injects.any fun st => st.method && isDeferErrB st.behavior) &&
  (!s.hasInit || !isSyncThrowB s.initB)

/-- In the trace `tr`, every event satisfying `p` occurs strictly before
every event satisfying `q`: the trace splits so that no `q`-event lies in
the left part and no `p`-event in the right part. -/
def Precedes (tr : List Ev) (p q : Ev → Bool) : Prop :=
  ∃ xs ys, tr = xs ++ ys ∧ (∀ e ∈ ys, p e = false) ∧ (∀ e ∈ xs, q e = false)

/-- The per-constructor blocks of the compiled injection sequence: block
`i` holds the points contributed by chain element `i` (empty when that
constructor has no metadata or all its keys are overridden). -/
def mergedBlocks (getData : GetData) : List Key → List Ty → List (List (Ty × InjectEntry))
  | _, [] => []
  | seen, c :: rest =>
    match getData c with
    | none => [] :: mergedBlocks getData seen rest
    | some data =>
      let (seen', out) := mergeOwn c seen data.injects
      out :: mergedBlocks getData seen' rest

/-! Concrete instances used by counterexamples and witnesses. -/

/-- An acyclic, diamond-shaped requirement graph: `A = 0` requires `B = 1`
and `C = 2` in its constructor, `B` and `C` each require `D = 3`, and `D`
requires `E = 4`.  No bindings, no inheritance. -/
def diamondEnv : VEnv where
  getData t :=
    if t = 0 then some { construct := some [.tref 1, .tref 2] }
    else if t = 1 then some { construct := some [.tref 3] }
    else if t = 2 then some { construct := some [.tref 3] }
    else if t = 3 then some { construct := some [.tref 4] }
    else none
  binding _ := none
  parentOf _ := none

/-- Subclass `C = 0` extending base `B = 1`; `C` declares a property
injection at key `"c"`, `B` one at key `"b"`. -/
def inheritGetData : GetData := fun t =>
  if t = 0 then some { injects := [⟨"c", .tref 5, false⟩] }
  else if t = 1 then some { injects := [⟨"b", .tref 5, false⟩] }
  else none

/-- Lifecycle of a singleton type whose init method returns a promise that
rejects (error id `7`). -/
def singletonRejectingInit : LifecycleSpec :=
  { singleton := true, hasInit := true, initB := .deferErr 7 }

/-- Lifecycle with a deferred constructor, one fulfilling deferred setter,
and a deferred init, for a singleton type. -/
def allDeferredSpec : LifecycleSpec :=
  { ctorB := .deferOk, injects := [⟨"setA", true, .deferOk⟩],
    hasInit := true, initB := .deferOk, singleton := true }

/-- Lifecycle with a deferred constructor, one rejecting deferred setter
(error id `3`), and a declared init. -/
def setterRejectSpec : LifecycleSpec :=
  { ctorB := .deferOk, injects := [⟨"setA", true, .deferErr 3⟩],
    hasInit := true, initB := .deferOk }

/-- A chain of two bindings reaching a fixed point: `0 → 1 → 2`. -/
def chainEnv : VEnv where
  getData _ := none
  binding t := if t = 0 then some 1 else if t = 1 then some 2 else none
  parentOf _ := none

/-- Abstract dependency scenario: `P = 0` requires `A = 1` in its
constructor; `A` is marked abstract; no bindings. -/
def abstractDepEnv : VEnv where
  getData t :=
    if t = 0 then some { construct := some [.tref 1] }
    else if t = 1 then some { abstract := true }
    else none
  binding _ := none
  parentOf _ := none

/-! ## Resolution lemmas -/

/-- `resolveFuel` is monotone in fuel: once the loop finishes, more fuel
does not change the result. -/
theorem resolveFuel_mono (binding : BindingMap) :
    ∀ f₁ f₂ t r, f₁ ≤ f₂ → resolveFuel binding f₁ t = some r →
      resolveFuel binding f₂ t = some r := by
  intro f₁
  induction f₁ with
  | zero =>
    intro f₂ t r _ h
    unfold resolveFuel at h ⊢
    cases hb : binding t with
    | none => simpa [hb] using h
    | some next => simp [hb] at h
  | succ f ih =>
    intro f₂ t r hle h
    unfold resolveFuel at h ⊢
    cases hb : binding t with
    | none => simpa [hb] using h
    | some next =>
      simp [hb] at h ⊢
      cases f₂ with
      | zero => omega
      | succ f₂ => exact ih f₂ next r (by omega) h

/-- If the redirection chain from `t` reaches a fixed point `r` after `n`
steps, then `resolveFuel` with fuel `n` returns `r`. -/
theorem resolveFuel_of_stepN (binding : BindingMap) :
    ∀ n t r, stepN binding n t = some r → binding r = none →
      resolveFuel binding n t = some r := by
  intro n
  induction n with
  | zero =>
    intro t r hstep hfix
    simp [stepN] at hstep
    subst hstep
    unfold resolveFuel
    simp [hfix]
  | succ n ih =>
    intro t r hstep hfix
    rw [stepN] at hstep
    cases hb : binding t with
    | none => rw [hb] at hstep; simp [Option.bind] at hstep
    | some next =>
      rw [hb] at hstep
      simp [Option.bind] at hstep
      unfold resolveFuel
      simp [hb]
      exact ih next r hstep hfix

/-- A two-type redirection cycle makes the `resolve` loop diverge: no fuel
suffices, starting from either type. -/
theorem resolveFuel_cycle (binding : BindingMap) (A B : Ty)
    (hA : binding A = some B) (hB : binding B = some A) :
    ∀ fuel, resolveFuel binding fuel A = none ∧ resolveFuel binding fuel B = none := by
  intro fuel
  induction fuel with
  | zero => constructor <;> (unfold resolveFuel; simp [hA, hB])
  | succ f ih =>
    constructor
    · unfold resolveFuel
      simp [hA]
      exact ih.2
    · unfold resolveFuel
      simp [hB]
      exact ih.1

/-- C7: for every requested type whose redirection chain reaches a fixed
point, `resolve(type)` follows the chain to that fixed point (a type with
no outgoing binding) and returns the final type; resolution is read-only,
so repeated calls return the same result and leave the binding table
(container state) unchanged. -/
theorem C7_resolve_follows_chain_to_fixed_point (env : VEnv) (t r : Ty) (n : Nat)
    (hchain : stepN env.binding n t = some r) (hfix : env.binding r = none) :
    (∀ fuel, n ≤ fuel →
      resolveOp env fuel t = (some r, env) ∧ env.binding r = none) := by
  intro fuel hle
  refine ⟨?_, hfix⟩
  have h := resolveFuel_of_stepN env.binding n t r hchain hfix
  have h' := resolveFuel_mono env.binding n fuel t r hle h
  simp [resolveOp, h']

/-- Witness for C7 at the concrete chain `0 → 1 → 2`. -/
theorem C7_witness :
    stepN chainEnv.binding 2 0 = some 2 ∧ chainEnv.binding 2 = none ∧
      resolveOp chainEnv 5 0 = (some 2, chainEnv) :=
  ⟨by decide, by decide,
    (C7_resolve_follows_chain_to_fixed_point chainEnv 0 2 2 (by decide) (by decide)
      5 (by decide)).1⟩

/-- C10: a redirection cycle in the binding table (`bind(A, B)` then
`bind(B, A)`) makes `resolve` diverge from either endpoint, so the second
`bind` call — which validates through `resolve` — never returns for any
fuel, and in particular never reports `CircularDependency`. -/
theorem C10_binding_cycle_diverges (getData : GetData) (parentOf : Ty → Option Ty)
    (A B : Ty) (hAB : A ≠ B) (fuel : Nat) :
    (resolveFuel (bindingSet (bindingSet (fun _ => none) A B) B A) fuel A = none ∧
     resolveFuel (bindingSet (bindingSet (fun _ => none) A B) B A) fuel B = none) ∧
    bindFuel ⟨getData, bindingSet (fun _ => none) A B, parentOf⟩ fuel B A = none ∧
    (∀ origins offender,
      bindFuel ⟨getData, bindingSet (fun _ => none) A B, parentOf⟩ fuel B A ≠
        some (.error (.circularDependency origins offender))) := by
  have hA : bindingSet (bindingSet (fun _ => none) A B) B A A = some B := by
    simp [bindingSet, hAB]
  have hB : bindingSet (bindingSet (fun _ => none) A B) B A B = some A := by
    simp [bindingSet]
  have hcycle := resolveFuel_cycle _ A B hA hB
  have hdiv : bindFuel ⟨getData, bindingSet (fun _ => none) A B, parentOf⟩ fuel B A = none := by
    unfold bindFuel validate
    cases fuel with
    | zero => simp [validateType]
    | succ f =>
      have : validateType ⟨getData, bindingSet (bindingSet (fun _ => none) A B) B A,
          parentOf⟩ (f + 1) ⟨[], []⟩ A = none := by
        unfold validateType
        simp [(hcycle (f + 1)).1]
      simp [this]
  exact ⟨hcycle fuel, hdiv, fun origins offender h => by simp [hdiv] at h⟩

/-- Witness for C10 at `A = 0`, `B = 1`, fuel `7`. -/
theorem C10_witness :
    (0 : Ty) ≠ 1 ∧
      bindFuel ⟨fun _ => none, bindingSet (fun _ => none) 0 1, fun _ => none⟩ 7 1 0
        = none :=
  ⟨by decide,
    (C10_binding_cycle_diverges (fun _ => none) (fun _ => none) 0 1 (by decide) 7).2.1⟩

/-! ## Validation -/

/-- C1 (bug): on the acyclic diamond `A → {B, C}`, `B → D`, `C → D`,
`D → E`, `validate(A)` reports a `CircularDependency` at `D` even though
no type is reachable from itself: `Stack.pop` runs
`this.set.delete(this.stack.pop())`, deleting the popped *origin string*
from the set of types, so a type is never removed from the walk path —
as the second conjunct shows on a single push/pop pair. -/
theorem C1_acyclic_diamond_reported_as_cycle :
    validate diamondEnv 40 0 =
      some (.error (.circularDependency ["0(constructor)", "2(constructor)"] 3)) ∧
    (VStack.pop (VStack.push ⟨[], []⟩ 1 "1(constructor)")).set = [JVal.ty 1] :=
  ⟨rfl, rfl⟩

/-! ## Abstractness at construction time -/

/-- C6: whenever the resolved type's metadata marks it abstract, invoking
the compiled construction procedure fails with `AbstractInstantiation` and
performs no construction step (empty constructor-invocation log) — both
when invoked directly (`create`) and when the abstract type is reached
indirectly as a `TypeRef` dependency of another type with no binding of
its own. -/
theorem C6_abstract_fails_immediately (env : VEnv) (fuel : Nat) (t r p : Ty)
    (dp : DependencyData)
    (hres : resolveFuel env.binding (fuel + 1) t = some r)
    (habs : ((env.getData r).getD {}).abstract = true) :
    constructType env (fuel + 1) t = ([], some (.error (.abstractInstantiation r))) ∧
    materializeDefn env (fuel + 2) (.tref t)
      = ([], some (.error (.abstractInstantiation r))) ∧
    (env.getData p = some dp → dp.abstract = false → dp.construct = some [.tref t] →
      env.binding p = none →
      constructType env (fuel + 4) p
        = ([], some (.error (.abstractInstantiation r)))) := by
  have h1 : constructType env (fuel + 1) t
      = ([], some (.error (.abstractInstantiation r))) := by
    unfold constructType
    rw [hres]
    simp [habs]
  have h2 : materializeDefn env (fuel + 2) (.tref t)
      = ([], some (.error (.abstractInstantiation r))) := by
    unfold materializeDefn
    exact h1
  refine ⟨h1, h2, fun hgp hpa hpc hpb => ?_⟩
  have hresp : resolveFuel env.binding (fuel + 4) p = some p := by
    unfold resolveFuel
    simp [hpb]
  have h3 : materializeList env (fuel + 3) [Defn.tref t]
      = ([], some (.error (.abstractInstantiation r))) := by
    unfold materializeList
    rw [h2]
  unfold constructType
  rw [hresp]
  simp [hgp, hpa, hpc, h3]

/-- Witness for C6: the concrete abstract-dependency environment, in which
type `1` is abstract, type `0` requires it, and neither is bound. -/
theorem C6_witness :
    resolveFuel abstractDepEnv.binding 3 1 = some 1 ∧
    ((abstractDepEnv.getData 1).getD {}).abstract = true ∧
    constructType abstractDepEnv 3 1 = ([], some (.error (.abstractInstantiation 1))) ∧
    constructType abstractDepEnv 6 0 = ([], some (.error (.abstractInstantiation 1))) := by
  refine ⟨by rfl, by rfl, ?_, ?_⟩
  · exact (C6_abstract_fails_immediately abstractDepEnv 2 1 1 0
      { construct := some [.tref 1] } (by rfl) (by rfl)).1
  · exact (C6_abstract_fails_immediately abstractDepEnv 2 1 1 0
      { construct := some [.tref 1] } (by rfl) (by rfl)).2.2 rfl rfl rfl rfl

/-! ## Metadata store -/

/-- `Map.set` then `Map.get` of the same key yields the written record. -/
theorem lookup_mapSet_self :
    ∀ (l : List (Ty × DependencyData)) (t : Ty) (d : DependencyData),
      (mapSet l t d).lookup t = some d := by
  intro l
  induction l with
  | nil => intro t d; simp [mapSet, List.lookup]
  | cons hd tl ih =>
    intro t d
    obtain ⟨t', d'⟩ := hd
    by_cases h : t' = t
    · subst h
      simp [mapSet, List.lookup]
    · simp [mapSet, h, List.lookup]
      have : (t == t') = false := by
        simp [Ne.symm h]
      simp [this, ih]

/-- C9: `declareAbstract(type, key)` with a key that names no function on
the prototype throws `InvalidAbstractTarget`, but the record was already
created and marked abstract before the check; any container compiled from
the resulting store state then fails `create(type)` with
`AbstractInstantiation`. -/
theorem C9_failed_declareAbstract_leaves_type_abstract (penv : ProtoEnv)
    (st : ModuleState) (T : Ty) (k : Key) (hk : penv.protoFn T k = false) :
    (declareAbstract penv st T (some k)).error = some .invalidAbstractTarget ∧
    ∃ d, (declareAbstract penv st T (some k)).state.getData T = some d ∧
      d.abstract = true ∧
      ∀ parentOf fuel,
        constructType ⟨(declareAbstract penv st T (some k)).state.getData,
            fun _ => none, parentOf⟩ (fuel + 1) T
          = ([], some (.error (.abstractInstantiation T))) := by
  have hstate : (declareAbstract penv st T (some k)).state
      = st.set T { (st.getData T).getD {} with abstract := true } := by
    simp [declareAbstract, createData, hk]
  have herr : (declareAbstract penv st T (some k)).error
      = some .invalidAbstractTarget := by
    simp [declareAbstract, createData, hk]
  refine ⟨herr, { (st.getData T).getD {} with abstract := true }, ?_, rfl, ?_⟩
  · rw [hstate]
    exact lookup_mapSet_self st.data T _
  · intro parentOf fuel
    have hget : (declareAbstract penv st T (some k)).state.getData T
        = some { (st.getData T).getD {} with abstract := true } := by
      rw [hstate]
      exact lookup_mapSet_self st.data T _
    unfold constructType
    have hresT : resolveFuel (fun _ => none) (fuel + 1) T = some T := by
      unfold resolveFuel
      simp
    simp only [hresT, hget, Option.getD_some]
    rfl

/-- C8 (bug): the method-key form of `declareAbstract` completes without
error and mutates the record, but returns before the trailing
`this.emit(Module.UPDATE, type)`, so no change event is emitted and no
attached container revalidates or recompiles — unlike every other
successful declaration, which emits exactly one event carrying the type. -/
theorem C8_method_abstract_emits_no_update :
    (declareAbstract ⟨fun _ _ => true⟩ ⟨[]⟩ 0 (some "m")).error = none ∧
    (declareAbstract ⟨fun _ _ => true⟩ ⟨[]⟩ 0 (some "m")).state.getData 0
      = some { abstract := true } ∧
    (declareAbstract ⟨fun _ _ => true⟩ ⟨[]⟩ 0 (some "m")).events = [] ∧
    updateReactions (declareAbstract ⟨fun _ _ => true⟩ ⟨[]⟩ 0 (some "m")).events = [] ∧
    (declareAbstract ⟨fun _ _ => true⟩ ⟨[]⟩ 0 none).events = [0] ∧
    (declareSingleton ⟨[]⟩ 0).events = [0] ∧
    (declareInject ⟨fun _ _ => true⟩ ⟨[]⟩ 0 (some "m") [.tref 1]).events = [0] ∧
    (declareInject ⟨fun _ _ => false⟩ ⟨[]⟩ 0 (some "p") [.tref 1]).events = [0] ∧
    (declareInject ⟨fun _ _ => false⟩ ⟨[]⟩ 0 none [.tref 1]).events = [0] ∧
    (declareInit ⟨fun _ _ => true⟩ ⟨[]⟩ 0 "m").events = [0] ∧
    updateReactions [0] = [.validate 0, .build 0] :=
  ⟨rfl, rfl, rfl, rfl, rfl, rfl, rfl, rfl, rfl, rfl, rfl⟩

/-- C5: for subclass `C = 0` extending base `B = 1` (chain `[0, 1]`), when
both declare an injection point at the same key the compiled injection
sequence contains C's definition only; when the keys differ it contains
both the subclass's and the inherited point. -/
theorem C5_subclass_override (defC defB : Defn) (mC mB : Bool) (k kc kb : Key)
    (hne : kc ≠ kb) :
    mergedInjects (fun t =>
        if t = 0 then some { injects := [⟨k, defC, mC⟩] }
        else if t = 1 then some { injects := [⟨k, defB, mB⟩] } else none) [0, 1]
      = [(0, ⟨k, defC, mC⟩)] ∧
    mergedInjects (fun t =>
        if t = 0 then some { injects := [⟨kc, defC, mC⟩] }
        else if t = 1 then some { injects := [⟨kb, defB, mB⟩] } else none) [0, 1]
      = [(0, ⟨kc, defC, mC⟩), (1, ⟨kb, defB, mB⟩)] := by
  constructor
  · simp [mergedInjects, mergedInjectsFrom, mergeOwn]
  · simp [mergedInjects, mergedInjectsFrom, mergeOwn, Ne.symm hne]

/-- Witness for C5 at concrete keys and definitions. -/
theorem C5_witness :
    ("c" : Key) ≠ "b" ∧
    mergedInjects (fun t =>
        if t = 0 then some { injects := [⟨"c", .tref 7, false⟩] }
        else if t = 1 then some { injects := [⟨"b", .tref 8, false⟩] } else none) [0, 1]
      = [(0, ⟨"c", .tref 7, false⟩), (1, ⟨"b", .tref 8, false⟩)] :=
  ⟨by decide,
    (C5_subclass_override (.tref 7) (.tref 8) false false "a" "c" "b" (by decide)).2⟩

/-! ## Lifecycle phase lemmas -/

/-- Every event emitted by the injection loop begins an injection point. -/
theorem runInjectLoop_events :
    ∀ l, ∀ e ∈ (runInjectLoop l).1, isInjectBeginEv e = true := by
  intro l
  induction l with
  | nil => intro e he; simp [runInjectLoop] at he
  | cons st rest ih =>
    intro e he
    rcases hrest : runInjectLoop rest with ⟨evs, r⟩
    have ih' : ∀ e ∈ evs, isInjectBeginEv e = true := by
      intro e he'
      exact ih e (by rw [hrest]; exact he')
    by_cases hm : st.method
    · cases hb : st.behavior with
      | syncThrow e' =>
        simp [runInjectLoop, hm, hb] at he
        subst he; rfl
      | sync =>
        simp [runInjectLoop, hm, hb, hrest] at he
        rcases he with rfl | he
        · rfl
        · exact ih' e he
      | deferOk =>
        simp [runInjectLoop, hm, hb, hrest] at he
        rcases he with rfl | he
        · rfl
        · exact ih' e he
      | deferErr e' =>
        simp [runInjectLoop, hm, hb, hrest] at he
        rcases he with rfl | he
        · rfl
        · exact ih' e he
    · simp [runInjectLoop, hm, hrest] at he
      rcases he with rfl | he
      · rfl
      · exact ih' e he

/-- Every event emitted by the joint wait is a setter settlement. -/
theorem runJoin_events :
    ∀ p, ∀ e ∈ (runJoin p).1, isInjectSettledEv e = true := by
  intro p
  induction p with
  | nil => intro e he; simp [runJoin] at he
  | cons kb rest ih =>
    intro e he
    rcases hrest : runJoin rest with ⟨evs, r⟩
    have ih' : ∀ e ∈ evs, isInjectSettledEv e = true := by
      intro e he'
      exact ih e (by rw [hrest]; exact he')
    obtain ⟨k, b⟩ := kb
    cases b with
    | deferOk =>
      simp [runJoin, hrest] at he
      rcases he with rfl | he
      · rfl
      · exact ih' e he
    | deferErr e' => simp [runJoin] at he
    | sync =>
      simp [runJoin, hrest] at he
      exact ih' e he
    | syncThrow e' =>
      simp [runJoin, hrest] at he
      exact ih' e he

/-- Every event of the body tail is the init call, the singleton pin, the
init settlement, or the delivery. -/
theorem runAfter_events :
    ∀ s, ∀ e ∈ (runAfter s).1,
      e = .initCall ∨ e = .pin ∨ e = .initSettled ∨ e = .deliver := by
  intro s e he
  cases hI : s.hasInit <;> cases hB : s.initB <;> cases hS : s.singleton <;>
    simp [runAfter, hI, hB, hS] at he <;> tauto

/-- When no setter throws synchronously, the injection loop completes and
collects exactly the thenable results of the method points. -/
theorem runInjectLoop_ok_of_loopOk :
    ∀ l, loopOk l = true → (runInjectLoop l).2 = .ok (pushedOf l) := by
  intro l
  induction l with
  | nil => intro _; simp [runInjectLoop, pushedOf]
  | cons st rest ih =>
    intro hok
    rcases hrest : runInjectLoop rest with ⟨evs, r⟩
    have hok' : loopOk rest = true := by
      simp [loopOk] at hok ⊢
      exact hok.2
    have hr : r = .ok (pushedOf rest) := by
      have := ih hok'
      rw [hrest] at this
      exact this
    by_cases hm : st.method
    · cases hb : st.behavior with
      | syncThrow e' =>
        exfalso
        simp [loopOk, hm, hb, isSyncThrowB] at hok
      | sync => simp [runInjectLoop, hm, hb, hrest, hr, pushedOf, Except.map]
      | deferOk => simp [runInjectLoop, hm, hb, hrest, hr, pushedOf, Except.map]
      | deferErr e' => simp [runInjectLoop, hm, hb, hrest, hr, pushedOf, Except.map]
    · simp [runInjectLoop, hm, hrest, hr, pushedOf]

/-- When some setter throws synchronously, the injection loop aborts with a
user error. -/
theorem runInjectLoop_err_of_not_loopOk :
    ∀ l, loopOk l = false → ∃ e, (runInjectLoop l).2 = .error (.user e) := by
  intro l
  induction l with
  | nil => intro h; simp [loopOk] at h
  | cons st rest ih =>
    intro hnok
    rcases hrest : runInjectLoop rest with ⟨evs, r⟩
    by_cases hm : st.method
    · cases hb : st.behavior with
      | syncThrow e' =>
        exact ⟨e', by simp [runInjectLoop, hm, hb]⟩
      | sync =>
        have : loopOk rest = false := by
          simp [loopOk, hm, hb, isSyncThrowB] at hnok ⊢
          exact hnok
        obtain ⟨e, he⟩ := ih this
        rw [hrest] at he
        exact ⟨e, by simp [runInjectLoop, hm, hb, hrest, he, Except.map]⟩
      | deferOk =>
        have : loopOk rest = false := by
          simp [loopOk, hm, hb, isSyncThrowB] at hnok ⊢
          exact hnok
        obtain ⟨e, he⟩ := ih this
        rw [hrest] at he
        exact ⟨e, by simp [runInjectLoop, hm, hb, hrest, he, Except.map]⟩
      | deferErr e' =>
        have : loopOk rest = false := by
          simp [loopOk, hm, hb, isSyncThrowB] at hnok ⊢
          exact hnok
        obtain ⟨e, he⟩ := ih this
        rw [hrest] at he
        exact ⟨e, by simp [runInjectLoop, hm, hb, hrest, he, Except.map]⟩
    · have : loopOk rest = false := by
        simp [loopOk, hm] at hnok ⊢
        exact hnok
      obtain ⟨e, he⟩ := ih this
      rw [hrest] at he
      exact ⟨e, by simp [runInjectLoop, hm, hrest, he]⟩

/-- The joint wait fulfils exactly when no collected promise rejects. -/
theorem runJoin_ok_iff :
    ∀ p, (runJoin p).2 = .ok () ↔ ∀ kb ∈ p, isDeferErrB kb.2 = false := by
  intro p
  induction p with
  | nil => simp [runJoin]
  | cons kb rest ih =>
    rcases hrest : runJoin rest with ⟨evs, r⟩
    obtain ⟨k, b⟩ := kb
    rw [hrest] at ih
    cases b with
    | deferOk => simp [runJoin, hrest, isDeferErrB, ih]
    | deferErr e => simp [runJoin, isDeferErrB]
    | sync => simp [runJoin, hrest, isDeferErrB, ih]
    | syncThrow e => simp [runJoin, hrest, isDeferErrB, ih]

/-- When some collected promise rejects, the joint wait rejects with one
of the collected rejections. -/
theorem runJoin_err :
    ∀ p, (∃ kb ∈ p, isDeferErrB kb.2 = true) →
      ∃ e, (runJoin p).2 = .error (.user e) ∧ (∃ k, (k, Behavior.deferErr e) ∈ p) := by
  intro p
  induction p with
  | nil => intro h; simp at h
  | cons kb rest ih =>
    intro h
    rcases hrest : runJoin rest with ⟨evs, r⟩
    obtain ⟨k, b⟩ := kb
    cases b with
    | deferErr e =>
      exact ⟨e, by simp [runJoin], ⟨k, by simp⟩⟩
    | deferOk =>
      have h' : ∃ kb ∈ rest, isDeferErrB kb.2 = true := by
        rcases h with ⟨kb', hkb', hd⟩
        rcases List.mem_cons.mp hkb' with rfl | hmem
        · simp [isDeferErrB] at hd
        · exact ⟨kb', hmem, hd⟩
      obtain ⟨e, he, k', hk'⟩ := ih h'
      rw [hrest] at he
      exact ⟨e, by simp [runJoin, hrest, he], ⟨k', by simp [hk']⟩⟩
    | sync =>
      have h' : ∃ kb ∈ rest, isDeferErrB kb.2 = true := by
        rcases h with ⟨kb', hkb', hd⟩
        rcases List.mem_cons.mp hkb' with rfl | hmem
        · simp [isDeferErrB] at hd
        · exact ⟨kb', hmem, hd⟩
      obtain ⟨e, he, k', hk'⟩ := ih h'
      rw [hrest] at he
      exact ⟨e, by simp [runJoin, hrest, he], ⟨k', by simp [hk']⟩⟩
    | syncThrow e0 =>
      have h' : ∃ kb ∈ rest, isDeferErrB kb.2 = true := by
        rcases h with ⟨kb', hkb', hd⟩
        rcases List.mem_cons.mp hkb' with rfl | hmem
        · simp [isDeferErrB] at hd
        · exact ⟨kb', hmem, hd⟩
      obtain ⟨e, he, k', hk'⟩ := ih h'
      rw [hrest] at he
      exact ⟨e, by simp [runJoin, hrest, he], ⟨k', by simp [hk']⟩⟩

/-- All-deferred setter hypotheses imply the loop completes. -/
theorem loopOk_of_all_deferred (l : List InjectStage)
    (h : ∀ st ∈ l, st.method = true →
      st.behavior = .deferOk ∨ ∃ e, st.behavior = .deferErr e) :
    loopOk l = true := by
  simp [loopOk]
  intro st hst
  cases hmb : st.method with
  | false => left; rfl
  | true =>
    right
    rcases h st hst hmb with hb | ⟨e, hb⟩ <;> simp [hb, isSyncThrowB]

/-- A rejecting promise in the collected array comes from a rejecting
method point of the injection sequence. -/
theorem pushedOf_deferErr_mem {l : List InjectStage} {k : Key} {e : Nat}
    (h : (k, Behavior.deferErr e) ∈ pushedOf l) :
    ∃ st ∈ l, st.method = true ∧ st.behavior = .deferErr e := by
  rw [pushedOf, List.mem_filterMap] at h
  obtain ⟨st, hst, hf⟩ := h
  refine ⟨st, hst, ?_⟩
  by_cases hm : st.method
  · cases hb : st.behavior with
    | sync => simp [hm, hb] at hf
    | syncThrow e0 => simp [hm, hb] at hf
    | deferOk => simp [hm, hb] at hf
    | deferErr e0 =>
      simp [hm, hb] at hf
      exact ⟨hm, by rw [hf.2]⟩
  · simp [hm] at hf

/-- There is a rejecting promise in the collected array iff some method
point's behavior is a rejection. -/
theorem pushedOf_any_deferErr (l : List InjectStage) :
    (∃ kb ∈ pushedOf l, isDeferErrB kb.2 = true) ↔
      (∃ st ∈ l, st.method = true ∧ isDeferErrB st.behavior = true) := by
  constructor
  · rintro ⟨⟨k, b⟩, hmem, hd⟩
    rw [pushedOf, List.mem_filterMap] at hmem
    obtain ⟨st, hst, hf⟩ := hmem
    by_cases hm : st.method
    · cases hb : st.behavior with
      | sync => simp [hm, hb] at hf
      | syncThrow e0 => simp [hm, hb] at hf
      | deferOk =>
        simp [hm, hb] at hf
        rw [← hf.2] at hd
        simp [isDeferErrB] at hd
      | deferErr e0 =>
        exact ⟨st, hst, hm, by simp [hb, isDeferErrB]⟩
    · simp [hm] at hf
  · rintro ⟨st, hst, hm, hd⟩
    cases hb : st.behavior <;> rw [hb] at hd <;> simp [isDeferErrB] at hd
    case deferErr e0 =>
      refine ⟨(st.key, st.behavior), ?_, by simp [hb, isDeferErrB]⟩
      rw [pushedOf, List.mem_filterMap]
      exact ⟨st, hst, by simp [hm, hb]⟩

/-- The singleton pin occurs in the body tail iff the type is a singleton
and the init invocation (if any) does not throw synchronously. -/
theorem pin_mem_runAfter (s : LifecycleSpec) :
    Ev.pin ∈ (runAfter s).1 ↔
      (s.singleton = true ∧ (s.hasInit = false ∨ isSyncThrowB s.initB = false)) := by
  cases hI : s.hasInit <;> cases hB : s.initB <;> cases hS : s.singleton <;>
    simp [runAfter, hI, hB, hS, isSyncThrowB]

/-- `Precedes` gives strict index ordering: a `p`-event's index is below
every `q`-event's index. -/
theorem Precedes.lt {tr : List Ev} {p q : Ev → Bool} (h : Precedes tr p q) :
    ∀ i j (hi : i < tr.length) (hj : j < tr.length),
      p (tr.get ⟨i, hi⟩) = true → q (tr.get ⟨j, hj⟩) = true → i < j := by
  obtain ⟨xs, ys, heq, hp, hq⟩ := h
  subst heq
  intro i j hi hj hpi hqj
  have hxi : i < xs.length := by
    by_contra hge
    push_neg at hge
    have hm : (xs ++ ys).get ⟨i, hi⟩ ∈ ys := by
      rw [List.get_eq_getElem, List.getElem_append_right hge]
      exact List.getElem_mem _
    have hfalse := hp _ hm
    rw [hpi] at hfalse
    exact Bool.noConfusion hfalse
  have hxj : xs.length ≤ j := by
    by_contra hlt
    push_neg at hlt
    have hm : (xs ++ ys).get ⟨j, hj⟩ ∈ xs := by
      rw [List.get_eq_getElem, List.getElem_append_left hlt]
      exact List.getElem_mem _
    have hfalse := hq _ hm
    rw [hqj] at hfalse
    exact Bool.noConfusion hfalse
  omega

/-- Injection-begin events are none of the tail events. -/
theorem injectBegin_classifiers {e : Ev} (h : isInjectBeginEv e = true) :
    isPinEv e = false ∧ isInitCallEv e = false ∧ isInitSettledEv e = false ∧
      isInjectSettledEv e = false := by
  cases e <;>
    simp_all [isInjectBeginEv, isPinEv, isInitCallEv, isInitSettledEv, isInjectSettledEv]

/-- Setter-settlement events are none of the tail events. -/
theorem injectSettled_classifiers {e : Ev} (h : isInjectSettledEv e = true) :
    isPinEv e = false ∧ isInitCallEv e = false ∧ isInitSettledEv e = false ∧
      isInjectBeginEv e = false := by
  cases e <;>
    simp_all [isInjectBeginEv, isPinEv, isInitCallEv, isInitSettledEv, isInjectSettledEv]

/-- If no event of the trace satisfies `q`, any `p` trivially precedes `q`. -/
theorem precedes_of_no_q {tr : List Ev} {p q : Ev → Bool}
    (h : ∀ e ∈ tr, q e = false) : Precedes tr p q :=
  ⟨tr, [], by simp, by simp, h⟩

/-- Extending a trace on the left by a non-`q` event preserves precedence. -/
theorem Precedes.cons {tr : List Ev} {p q : Ev → Bool} {x : Ev}
    (hx : q x = false) (h : Precedes tr p q) : Precedes (x :: tr) p q := by
  obtain ⟨xs, ys, heq, hp, hq⟩ := h
  refine ⟨x :: xs, ys, by rw [heq, List.cons_append], hp, ?_⟩
  intro e he
  rcases List.mem_cons.mp he with rfl | he
  · exact hx
  · exact hq e he

/-- If no event of the trace satisfies `p`, `p` trivially precedes `q`. -/
theorem precedes_of_no_p {tr : List Ev} {p q : Ev → Bool}
    (h : ∀ e ∈ tr, p e = false) : Precedes tr p q :=
  ⟨[], tr, rfl, h, by simp⟩

/-- Prefixing a trace with `q`-free events preserves precedence. -/
theorem precedes_append_left {pre tr : List Ev} {p q : Ev → Bool}
    (hpre : ∀ e ∈ pre, q e = false) (h : Precedes tr p q) :
    Precedes (pre ++ tr) p q := by
  obtain ⟨xs, ys, heq, hp, hq⟩ := h
  refine ⟨pre ++ xs, ys, by rw [heq, List.append_assoc], hp, ?_⟩
  intro e he
  rcases List.mem_append.mp he with he | he
  · exact hpre e he
  · exact hq e he

/-- In the body tail, the init invocation precedes the singleton pin. -/
theorem runAfter_precedes_initCall_pin (s : LifecycleSpec) :
    Precedes (runAfter s).1 isInitCallEv isPinEv := by
  cases hI : s.hasInit <;> cases hB : s.initB <;> cases hS : s.singleton <;>
    simp [runAfter, hI, hB, hS]
  case false.sync.false => exact precedes_of_no_q (by decide)
  case false.sync.true => exact precedes_of_no_p (by decide)
  case false.syncThrow.false _ => exact precedes_of_no_q (by decide)
  case false.syncThrow.true _ => exact precedes_of_no_p (by decide)
  case false.deferOk.false => exact precedes_of_no_q (by decide)
  case false.deferOk.true => exact precedes_of_no_p (by decide)
  case false.deferErr.false _ => exact precedes_of_no_q (by decide)
  case false.deferErr.true _ => exact precedes_of_no_p (by decide)
  case true.sync.false => exact precedes_of_no_q (by decide)
  case true.sync.true =>
    exact ⟨[.initCall], [.pin, .deliver], rfl, by decide, by decide⟩
  case true.syncThrow.false _ => exact precedes_of_no_q (by decide)
  case true.syncThrow.true _ => exact precedes_of_no_q (by decide)
  case true.deferOk.false => exact precedes_of_no_q (by decide)
  case true.deferOk.true =>
    exact ⟨[.initCall], [.pin, .initSettled, .deliver], rfl, by decide, by decide⟩
  case true.deferErr.false _ => exact precedes_of_no_q (by decide)
  case true.deferErr.true _ =>
    exact ⟨[.initCall], [.pin], rfl, by decide, by decide⟩

/-- In the body tail, the singleton pin precedes the init settlement. -/
theorem runAfter_precedes_pin_initSettled (s : LifecycleSpec) :
    Precedes (runAfter s).1 isPinEv isInitSettledEv := by
  cases hI : s.hasInit <;> cases hB : s.initB <;> cases hS : s.singleton <;>
    simp [runAfter, hI, hB, hS]
  case false.sync.false => exact precedes_of_no_q (by decide)
  case false.sync.true => exact precedes_of_no_q (by decide)
  case false.syncThrow.false _ => exact precedes_of_no_q (by decide)
  case false.syncThrow.true _ => exact precedes_of_no_q (by decide)
  case false.deferOk.false => exact precedes_of_no_q (by decide)
  case false.deferOk.true => exact precedes_of_no_q (by decide)
  case false.deferErr.false _ => exact precedes_of_no_q (by decide)
  case false.deferErr.true _ => exact precedes_of_no_q (by decide)
  case true.sync.false => exact precedes_of_no_q (by decide)
  case true.sync.true => exact precedes_of_no_q (by decide)
  case true.syncThrow.false _ => exact precedes_of_no_p (by decide)
  case true.syncThrow.true _ => exact precedes_of_no_p (by decide)
  case true.deferOk.false => exact precedes_of_no_p (by decide)
  case true.deferOk.true =>
    exact ⟨[.initCall, .pin], [.initSettled, .deliver], rfl, by decide, by decide⟩
  case true.deferErr.false _ => exact precedes_of_no_q (by decide)
  case true.deferErr.true _ => exact precedes_of_no_q (by decide)

/-- The singleton pin occurs in the body run iff the injection loop
completes, every collected promise fulfils, the type is a singleton, and
the init invocation (if any) does not throw synchronously. -/
theorem rest_pin_iff (s : LifecycleSpec) :
    Ev.pin ∈ (runRest s).1 ↔
      (s.singleton = true ∧ loopOk s.injects = true ∧
        (s.injects.any fun st => st.method && isDeferErrB st.behavior) = false ∧
        (s.hasInit = false ∨ isSyncThrowB s.initB = false)) := by
  rcases hIL : runInjectLoop s.injects with ⟨evs, r⟩
  have hevs : ∀ e ∈ evs, isInjectBeginEv e = true := by
    intro e he
    exact runInjectLoop_events s.injects e (by rw [hIL]; exact he)
  have hpin_evs : Ev.pin ∉ evs := by
    intro hmem
    have := hevs _ hmem
    simp [isInjectBeginEv] at this
  cases r with
  | error err =>
    have hnok : loopOk s.injects = false := by
      cases hlo : loopOk s.injects
      · rfl
      · have := runInjectLoop_ok_of_loopOk _ hlo
        rw [hIL] at this
        simp at this
    have h1 : (runRest s).1 = evs := by
      simp [runRest, hIL]
    rw [h1]
    constructor
    · intro h
      exact absurd h hpin_evs
    · rintro ⟨_, hok, _⟩
      rw [hnok] at hok
      exact Bool.noConfusion hok
  | ok pushed =>
    have hok : loopOk s.injects = true := by
      cases hlo : loopOk s.injects
      · obtain ⟨e, he⟩ := runInjectLoop_err_of_not_loopOk _ hlo
        rw [hIL] at he
        simp at he
      · rfl
    have hpushed : pushed = pushedOf s.injects := by
      have := runInjectLoop_ok_of_loopOk _ hok
      rw [hIL] at this
      simpa using this
    subst hpushed
    rcases hJ : runJoin (pushedOf s.injects) with ⟨jevs, jr⟩
    have hjevs : ∀ e ∈ jevs, isInjectSettledEv e = true := by
      intro e he
      exact runJoin_events _ e (by rw [hJ]; exact he)
    have hpin_jevs : Ev.pin ∉ jevs := by
      intro hmem
      have := hjevs _ hmem
      simp [isInjectSettledEv] at this
    cases jr with
    | error err =>
      have hnotok : ¬ (runJoin (pushedOf s.injects)).2 = .ok () := by
        rw [hJ]
        simp
      have hany : (s.injects.any fun st => st.method && isDeferErrB st.behavior) = true := by
        rw [List.any_eq_true]
        rw [runJoin_ok_iff] at hnotok
        push_neg at hnotok
        obtain ⟨kb, hkb, hne⟩ := hnotok
        have hdef : isDeferErrB kb.2 = true := by
          cases hd : isDeferErrB kb.2
          · exact absurd hd hne
          · rfl
        obtain ⟨st, hst, hm, hd⟩ := (pushedOf_any_deferErr s.injects).mp ⟨kb, hkb, hdef⟩
        exact ⟨st, hst, by simp [hm, hd]⟩
      have h1 : (runRest s).1 = evs ++ jevs := by
        simp [runRest, hIL, hJ]
      rw [h1]
      constructor
      · intro h
        rcases List.mem_append.mp h with h | h
        · exact absurd h hpin_evs
        · exact absurd h hpin_jevs
      · rintro ⟨_, _, hanyf, _⟩
        rw [hany] at hanyf
        exact Bool.noConfusion hanyf
    | ok u =>
      cases u
      have hnoerr : ∀ kb ∈ pushedOf s.injects, isDeferErrB kb.2 = false :=
        (runJoin_ok_iff _).mp (by rw [hJ])
      have hany : (s.injects.any fun st => st.method && isDeferErrB st.behavior) = false := by
        cases ha : s.injects.any fun st => st.method && isDeferErrB st.behavior
        · rfl
        · rw [List.any_eq_true] at ha
          obtain ⟨st, hst, hstp⟩ := ha
          simp at hstp
          obtain ⟨kb, hkb, hd⟩ := (pushedOf_any_deferErr s.injects).mpr ⟨st, hst, hstp.1, hstp.2⟩
          rw [hnoerr kb hkb] at hd
          exact Bool.noConfusion hd
      have h1 : (runRest s).1 = evs ++ jevs ++ (runAfter s).1 := by
        simp [runRest, hIL, hJ]
      rw [h1]
      constructor
      · intro h
        rcases List.mem_append.mp h with h | h
        · rcases List.mem_append.mp h with h | h
          · exact absurd h hpin_evs
          · exact absurd h hpin_jevs
        · have := (pin_mem_runAfter s).mp h
          exact ⟨this.1, hok, hany, this.2⟩
      · rintro ⟨hS, _, _, hX⟩
        exact List.mem_append.mpr (Or.inr ((pin_mem_runAfter s).mpr ⟨hS, hX⟩))

/-- In the body run, the init invocation precedes the singleton pin. -/
theorem rest_precedes_initCall_pin (s : LifecycleSpec) :
    Precedes (runRest s).1 isInitCallEv isPinEv := by
  rcases hIL : runInjectLoop s.injects with ⟨evs, r⟩
  have hevs : ∀ e ∈ evs, isPinEv e = false := by
    intro e he
    exact (injectBegin_classifiers (runInjectLoop_events s.injects e
      (by rw [hIL]; exact he))).1
  cases r with
  | error err =>
    have h1 : (runRest s).1 = evs := by simp [runRest, hIL]
    rw [h1]
    exact precedes_of_no_q hevs
  | ok pushed =>
    rcases hJ : runJoin pushed with ⟨jevs, jr⟩
    have hjevs : ∀ e ∈ jevs, isPinEv e = false := by
      intro e he
      exact (injectSettled_classifiers (runJoin_events pushed e
        (by rw [hJ]; exact he))).1
    cases jr with
    | error err =>
      have h1 : (runRest s).1 = evs ++ jevs := by simp [runRest, hIL, hJ]
      rw [h1]
      exact precedes_of_no_q (by
        intro e he
        rcases List.mem_append.mp he with he | he
        · exact hevs e he
        · exact hjevs e he)
    | ok u =>
      cases u
      have h1 : (runRest s).1 = (evs ++ jevs) ++ (runAfter s).1 := by
        simp [runRest, hIL, hJ]
      rw [h1]
      refine precedes_append_left ?_ (runAfter_precedes_initCall_pin s)
      intro e he
      rcases List.mem_append.mp he with he | he
      · exact hevs e he
      · exact hjevs e he

/-- In the body run, the singleton pin precedes the init settlement. -/
theorem rest_precedes_pin_initSettled (s : LifecycleSpec) :
    Precedes (runRest s).1 isPinEv isInitSettledEv := by
  rcases hIL : runInjectLoop s.injects with ⟨evs, r⟩
  have hevs : ∀ e ∈ evs, isInitSettledEv e = false := by
    intro e he
    exact (injectBegin_classifiers (runInjectLoop_events s.injects e
      (by rw [hIL]; exact he))).2.2.1
  cases r with
  | error err =>
    have h1 : (runRest s).1 = evs := by simp [runRest, hIL]
    rw [h1]
    exact precedes_of_no_q hevs
  | ok pushed =>
    rcases hJ : runJoin pushed with ⟨jevs, jr⟩
    have hjevs : ∀ e ∈ jevs, isInitSettledEv e = false := by
      intro e he
      exact (injectSettled_classifiers (runJoin_events pushed e
        (by rw [hJ]; exact he))).2.2.1
    cases jr with
    | error err =>
      have h1 : (runRest s).1 = evs ++ jevs := by simp [runRest, hIL, hJ]
      rw [h1]
      exact precedes_of_no_q (by
        intro e he
        rcases List.mem_append.mp he with he | he
        · exact hevs e he
        · exact hjevs e he)
    | ok u =>
      cases u
      have h1 : (runRest s).1 = (evs ++ jevs) ++ (runAfter s).1 := by
        simp [runRest, hIL, hJ]
      rw [h1]
      refine precedes_append_left ?_ (runAfter_precedes_pin_initSettled s)
      intro e he
      rcases List.mem_append.mp he with he | he
      · exact hevs e he
      · exact hjevs e he

/-- C2 (counterexample): for a singleton type whose declared init method
returns a promise that rejects, the compiled procedure still replaces the
type's construction procedure: the pin event occurs although the init step
never succeeds, and `create` fails with the rejection. -/
theorem C2_counterexample_pin_despite_rejected_init :
    runBuild singletonRejectingInit
      = ([.ctorCall, .ctorSettled, .initCall, .pin], .error (.user 7)) ∧
    Ev.pin ∈ (runBuild singletonRejectingInit).1 :=
  ⟨rfl, by decide⟩

/-- C2 (amended): the singleton replacement executes iff the type is a
singleton and construction reaches the replacement line — constructor
value available, injection loop completed, all collected setter promises
fulfilled, and the init invocation (if any) not throwing synchronously;
the replacement sits after the init *invocation* but before the init
deferred settles, so a rejected or still-pending deferred init still pins
the singleton (only a synchronous init throw prevents the pin). -/
theorem C2_amended_singleton_pin (s : LifecycleSpec) :
    (Ev.pin ∈ (runBuild s).1 ↔ s.singleton = true ∧ pinReached s = true) ∧
    Precedes (runBuild s).1 isInitCallEv isPinEv ∧
    Precedes (runBuild s).1 isPinEv isInitSettledEv := by
  cases habs : s.abstract with
  | true =>
    have h1 : runBuild s = ([], .error (.abstractInstantiation s.ty)) := by
      simp [runBuild, habs]
    rw [h1]
    refine ⟨?_, precedes_of_no_q (by simp), precedes_of_no_q (by simp)⟩
    simp [pinReached, habs]
  | false =>
    cases hc : s.ctorB with
    | syncThrow e =>
      have h1 : runBuild s = ([.ctorCall], .error (.user e)) := by
        simp [runBuild, habs, hc]
      rw [h1]
      refine ⟨?_, precedes_of_no_q ?_, precedes_of_no_q ?_⟩
      rotate_left
      · intro x hx
        simp at hx
        subst hx
        rfl
      · intro x hx
        simp at hx
        subst hx
        rfl
      constructor
      · intro h
        simp at h
      · rintro ⟨_, hr⟩
        simp [pinReached, habs, hc] at hr
    | deferErr e =>
      have h1 : runBuild s = ([.ctorCall], .error (.user e)) := by
        simp [runBuild, habs, hc]
      rw [h1]
      refine ⟨?_, precedes_of_no_q ?_, precedes_of_no_q ?_⟩
      rotate_left
      · intro x hx
        simp at hx
        subst hx
        rfl
      · intro x hx
        simp at hx
        subst hx
        rfl
      constructor
      · intro h
        simp at h
      · rintro ⟨_, hr⟩
        simp [pinReached, habs, hc] at hr
    | sync =>
      have h1 : runBuild s = (.ctorCall :: .ctorSettled :: (runRest s).1, (runRest s).2) := by
        simp [runBuild, habs, hc]
      rw [h1]
      refine ⟨?_, ?_, ?_⟩
      · have hmem : Ev.pin ∈ Ev.ctorCall :: Ev.ctorSettled :: (runRest s).1 ↔
            Ev.pin ∈ (runRest s).1 := by
          simp
        rw [hmem, rest_pin_iff]
        simp [pinReached, habs, hc]
        tauto
      · exact Precedes.cons (by decide)
          (Precedes.cons (by decide) (rest_precedes_initCall_pin s))
      · exact Precedes.cons (by decide)
          (Precedes.cons (by decide) (rest_precedes_pin_initSettled s))
    | deferOk =>
      have h1 : runBuild s = (.ctorCall :: .ctorSettled :: (runRest s).1, (runRest s).2) := by
        simp [runBuild, habs, hc]
      rw [h1]
      refine ⟨?_, ?_, ?_⟩
      · have hmem : Ev.pin ∈ Ev.ctorCall :: Ev.ctorSettled :: (runRest s).1 ↔
            Ev.pin ∈ (runRest s).1 := by
          simp
        rw [hmem, rest_pin_iff]
        simp [pinReached, habs, hc]
        tauto
      · exact Precedes.cons (by decide)
          (Precedes.cons (by decide) (rest_precedes_initCall_pin s))
      · exact Precedes.cons (by decide)
          (Precedes.cons (by decide) (rest_precedes_pin_initSettled s))

/-- Witness for the amended C2 at the concrete rejecting-init singleton:
the pin is reached there. -/
theorem C2_amended_witness :
    Ev.pin ∈ (runBuild singletonRejectingInit).1 :=
  (C2_amended_singleton_pin singletonRejectingInit).1.mpr (by decide)

/-- In the body run, every setter settlement precedes the init invocation. -/
theorem rest_precedes_settled_initCall (s : LifecycleSpec) :
    Precedes (runRest s).1 isInjectSettledEv isInitCallEv := by
  rcases hIL : runInjectLoop s.injects with ⟨evs, r⟩
  have hevs : ∀ e ∈ evs, isInitCallEv e = false := by
    intro e he
    exact (injectBegin_classifiers (runInjectLoop_events s.injects e
      (by rw [hIL]; exact he))).2.1
  cases r with
  | error err =>
    have h1 : (runRest s).1 = evs := by simp [runRest, hIL]
    rw [h1]
    exact precedes_of_no_q hevs
  | ok pushed =>
    rcases hJ : runJoin pushed with ⟨jevs, jr⟩
    have hjevs : ∀ e ∈ jevs, isInitCallEv e = false := by
      intro e he
      exact (injectSettled_classifiers (runJoin_events pushed e
        (by rw [hJ]; exact he))).2.1
    cases jr with
    | error err =>
      have h1 : (runRest s).1 = evs ++ jevs := by simp [runRest, hIL, hJ]
      rw [h1]
      exact precedes_of_no_q (by
        intro e he
        rcases List.mem_append.mp he with he | he
        · exact hevs e he
        · exact hjevs e he)
    | ok u =>
      cases u
      have h1 : (runRest s).1 = (evs ++ jevs) ++ (runAfter s).1 := by
        simp [runRest, hIL, hJ]
      rw [h1]
      refine ⟨evs ++ jevs, (runAfter s).1, rfl, ?_, ?_⟩
      · intro e he
        rcases runAfter_events s e he with rfl | rfl | rfl | rfl <;> rfl
      · intro e he
        rcases List.mem_append.mp he with he | he
        · exact hevs e he
        · exact hjevs e he

/-- Over the whole compiled run, every setter settlement precedes the init
invocation. -/
theorem build_precedes_settled_initCall (s : LifecycleSpec) :
    Precedes (runBuild s).1 isInjectSettledEv isInitCallEv := by
  cases habs : s.abstract with
  | true =>
    have h1 : (runBuild s).1 = [] := by simp [runBuild, habs]
    rw [h1]
    exact precedes_of_no_q (by simp)
  | false =>
    cases hc : s.ctorB with
    | syncThrow e =>
      have h1 : (runBuild s).1 = [.ctorCall] := by simp [runBuild, habs, hc]
      rw [h1]
      exact precedes_of_no_q (by
        intro x hx
        simp at hx
        subst hx
        rfl)
    | deferErr e =>
      have h1 : (runBuild s).1 = [.ctorCall] := by simp [runBuild, habs, hc]
      rw [h1]
      exact precedes_of_no_q (by
        intro x hx
        simp at hx
        subst hx
        rfl)
    | sync =>
      have h1 : (runBuild s).1 = .ctorCall :: .ctorSettled :: (runRest s).1 := by
        simp [runBuild, habs, hc]
      rw [h1]
      exact Precedes.cons (by decide)
        (Precedes.cons (by decide) (rest_precedes_settled_initCall s))
    | deferOk =>
      have h1 : (runBuild s).1 = .ctorCall :: .ctorSettled :: (runRest s).1 := by
        simp [runBuild, habs, hc]
      rw [h1]
      exact Precedes.cons (by decide)
        (Precedes.cons (by decide) (rest_precedes_settled_initCall s))

/-- The constructor-settlement event precedes (and exists below) every
injection-begin event of the compiled run. -/
theorem build_ctorSettled_before_inject (s : LifecycleSpec) :
    ∀ j (hj : j < (runBuild s).1.length),
      isInjectBeginEv ((runBuild s).1.get ⟨j, hj⟩) = true →
      ∃ i, ∃ hi : i < (runBuild s).1.length, i < j ∧
        (runBuild s).1.get ⟨i, hi⟩ = .ctorSettled := by
  cases habs : s.abstract with
  | true =>
    have h1 : (runBuild s).1 = [] := by simp [runBuild, habs]
    rw [h1]
    intro j hj
    simp at hj
  | false =>
    cases hc : s.ctorB with
    | syncThrow e =>
      have h1 : (runBuild s).1 = [.ctorCall] := by simp [runBuild, habs, hc]
      rw [h1]
      intro j hj hinj
      have hj0 : j = 0 := by simpa using hj
      subst hj0
      simp [List.get, isInjectBeginEv] at hinj
    | deferErr e =>
      have h1 : (runBuild s).1 = [.ctorCall] := by simp [runBuild, habs, hc]
      rw [h1]
      intro j hj hinj
      have hj0 : j = 0 := by simpa using hj
      subst hj0
      simp [List.get, isInjectBeginEv] at hinj
    | sync =>
      have h1 : (runBuild s).1 = .ctorCall :: .ctorSettled :: (runRest s).1 := by
        simp [runBuild, habs, hc]
      rw [h1]
      intro j hj hinj
      match j, hj with
      | 0, hj => simp [List.get, isInjectBeginEv] at hinj
      | 1, hj => simp [List.get, isInjectBeginEv] at hinj
      | (n + 2), hj =>
        exact ⟨1, by simp, by omega, rfl⟩
    | deferOk =>
      have h1 : (runBuild s).1 = .ctorCall :: .ctorSettled :: (runRest s).1 := by
        simp [runBuild, habs, hc]
      rw [h1]
      intro j hj hinj
      match j, hj with
      | 0, hj => simp [List.get, isInjectBeginEv] at hinj
      | 1, hj => simp [List.get, isInjectBeginEv] at hinj
      | (n + 2), hj =>
        exact ⟨1, by simp, by omega, rfl⟩

/-- In a trace of the shape `pre ++ [a, b]` with `b` not occurring in
`pre`, any occurrence of `b` is at the final index, and `a` occurs
immediately before it. -/
theorem exists_before_last {pre : List Ev} {a b : Ev} (hb : b ∉ pre) (hab : a ≠ b) :
    ∀ j (hj : j < (pre ++ [a, b]).length),
      (pre ++ [a, b]).get ⟨j, hj⟩ = b →
      ∃ i, ∃ hi : i < (pre ++ [a, b]).length, i < j ∧
        (pre ++ [a, b]).get ⟨i, hi⟩ = a := by
  intro j hj hget
  have hlen : (pre ++ [a, b]).length = pre.length + 2 := by simp
  by_cases hj1 : j < pre.length
  · exfalso
    have hmem : (pre ++ [a, b]).get ⟨j, hj⟩ ∈ pre := by
      rw [List.get_eq_getElem, List.getElem_append_left hj1]
      exact List.getElem_mem _
    rw [hget] at hmem
    exact hb hmem
  · push_neg at hj1
    by_cases hj2 : j = pre.length
    · exfalso
      have hva : (pre ++ [a, b]).get ⟨j, hj⟩ = a := by
        rw [List.get_eq_getElem, List.getElem_append_right hj1]
        subst hj2
        simp
      rw [hget] at hva
      exact hab hva.symm
    · have hilen : pre.length < (pre ++ [a, b]).length := by rw [hlen]; omega
      have hij : pre.length < j := by omega
      refine ⟨pre.length, hilen, hij, ?_⟩
      rw [List.get_eq_getElem, List.getElem_append_right (le_refl pre.length)]
      simp

/-- Lift an index-ordering fact over a trace to the trace extended by two
leading events that are not the target. -/
theorem shift_two {rest : List Ev} {a b tgt res : Ev}
    (h : ∀ j (hj : j < rest.length), rest.get ⟨j, hj⟩ = tgt →
      ∃ i, ∃ hi : i < rest.length, i < j ∧ rest.get ⟨i, hi⟩ = res)
    (ha : a ≠ tgt) (hb : b ≠ tgt) :
    ∀ j (hj : j < (a :: b :: rest).length),
      (a :: b :: rest).get ⟨j, hj⟩ = tgt →
      ∃ i, ∃ hi : i < (a :: b :: rest).length, i < j ∧
        (a :: b :: rest).get ⟨i, hi⟩ = res := by
  intro j hj hget
  match j, hj with
  | 0, hj => exact absurd hget ha
  | 1, hj => exact absurd hget hb
  | (n + 2), hj =>
    have hn : n < rest.length := by simpa using hj
    obtain ⟨i, hi, hlt, hval⟩ := h n hn hget
    exact ⟨i + 2, by simpa using Nat.add_lt_add_right hi 2, by omega, hval⟩

/-- With a declared, deferred init, any delivery in the body run is
preceded by the init settlement. -/
theorem rest_initSettled_before_deliver (s : LifecycleSpec)
    (hinit : s.hasInit = true)
    (hinitB : s.initB = .deferOk ∨ ∃ e, s.initB = .deferErr e) :
    ∀ j (hj : j < (runRest s).1.length), (runRest s).1.get ⟨j, hj⟩ = .deliver →
      ∃ i, ∃ hi : i < (runRest s).1.length, i < j ∧
        (runRest s).1.get ⟨i, hi⟩ = .initSettled := by
  rcases hIL : runInjectLoop s.injects with ⟨evs, r⟩
  have hevs : ∀ e ∈ evs, e ≠ Ev.deliver := by
    intro e he heq
    have := runInjectLoop_events s.injects e (by rw [hIL]; exact he)
    rw [heq] at this
    simp [isInjectBeginEv] at this
  cases r with
  | error err =>
    have h1 : (runRest s).1 = evs := by simp [runRest, hIL]
    rw [h1]
    intro j hj hget
    exact absurd hget (hevs _ (List.get_mem evs j hj))
  | ok pushed =>
    rcases hJ : runJoin pushed with ⟨jevs, jr⟩
    have hjevs : ∀ e ∈ jevs, e ≠ Ev.deliver := by
      intro e he heq
      have := runJoin_events pushed e (by rw [hJ]; exact he)
      rw [heq] at this
      simp [isInjectSettledEv] at this
    cases jr with
    | error err =>
      have h1 : (runRest s).1 = evs ++ jevs := by simp [runRest, hIL, hJ]
      rw [h1]
      intro j hj hget
      have hmem := List.get_mem (evs ++ jevs) j hj
      rw [hget] at hmem
      rcases List.mem_append.mp hmem with hm | hm
      · exact absurd rfl (hevs _ hm)
      · exact absurd rfl (hjevs _ hm)
    | ok u =>
      cases u
      rcases hinitB with hB | ⟨e1, hB⟩
      · cases hS : s.singleton with
        | false =>
          have h1 : (runRest s).1
              = (evs ++ jevs ++ [Ev.initCall]) ++ [Ev.initSettled, Ev.deliver] := by
            simp [runRest, hIL, hJ, runAfter, hinit, hB, hS]
          rw [h1]
          refine exists_before_last ?_ (by decide)
          intro hmem
          rcases List.mem_append.mp hmem with hm | hm
          · rcases List.mem_append.mp hm with hm | hm
            · exact hevs _ hm rfl
            · exact hjevs _ hm rfl
          · simp at hm
        | true =>
          have h1 : (runRest s).1
              = (evs ++ jevs ++ [Ev.initCall, Ev.pin]) ++ [Ev.initSettled, Ev.deliver] := by
            simp [runRest, hIL, hJ, runAfter, hinit, hB, hS]
          rw [h1]
          refine exists_before_last ?_ (by decide)
          intro hmem
          rcases List.mem_append.mp hmem with hm | hm
          · rcases List.mem_append.mp hm with hm | hm
            · exact hevs _ hm rfl
            · exact hjevs _ hm rfl
          · simp at hm
      · cases hS : s.singleton with
        | false =>
          have h1 : (runRest s).1 = evs ++ jevs ++ [Ev.initCall] := by
            simp [runRest, hIL, hJ, runAfter, hinit, hB, hS]
          rw [h1]
          intro j hj hget
          have hmem := List.get_mem (evs ++ jevs ++ [Ev.initCall]) j hj
          rw [hget] at hmem
          rcases List.mem_append.mp hmem with hm | hm
          · rcases List.mem_append.mp hm with hm | hm
            · exact absurd rfl (hevs _ hm)
            · exact absurd rfl (hjevs _ hm)
          · simp at hm
        | true =>
          have h1 : (runRest s).1 = evs ++ jevs ++ [Ev.initCall, Ev.pin] := by
            simp [runRest, hIL, hJ, runAfter, hinit, hB, hS]
          rw [h1]
          intro j hj hget
          have hmem := List.get_mem (evs ++ jevs ++ [Ev.initCall, Ev.pin]) j hj
          rw [hget] at hmem
          rcases List.mem_append.mp hmem with hm | hm
          · rcases List.mem_append.mp hm with hm | hm
            · exact absurd rfl (hevs _ hm)
            · exact absurd rfl (hjevs _ hm)
          · simp at hm

/-- With a declared, deferred init, any delivery of the compiled run is
preceded by the init settlement. -/
theorem build_initSettled_before_deliver (s : LifecycleSpec)
    (hinit : s.hasInit = true)
    (hinitB : s.initB = .deferOk ∨ ∃ e, s.initB = .deferErr e) :
    ∀ j (hj : j < (runBuild s).1.length),
      (runBuild s).1.get ⟨j, hj⟩ = .deliver →
      ∃ i, ∃ hi : i < (runBuild s).1.length, i < j ∧
        (runBuild s).1.get ⟨i, hi⟩ = .initSettled := by
  cases habs : s.abstract with
  | true =>
    have h1 : (runBuild s).1 = [] := by simp [runBuild, habs]
    rw [h1]
    intro j hj
    simp at hj
  | false =>
    cases hc : s.ctorB with
    | syncThrow e =>
      have h1 : (runBuild s).1 = [.ctorCall] := by simp [runBuild, habs, hc]
      rw [h1]
      intro j hj hget
      have hj0 : j = 0 := by simpa using hj
      subst hj0
      simp [List.get] at hget
    | deferErr e =>
      have h1 : (runBuild s).1 = [.ctorCall] := by simp [runBuild, habs, hc]
      rw [h1]
      intro j hj hget
      have hj0 : j = 0 := by simpa using hj
      subst hj0
      simp [List.get] at hget
    | sync =>
      have h1 : (runBuild s).1 = .ctorCall :: .ctorSettled :: (runRest s).1 := by
        simp [runBuild, habs, hc]
      rw [h1]
      exact shift_two (rest_initSettled_before_deliver s hinit hinitB)
        (by decide) (by decide)
    | deferOk =>
      have h1 : (runBuild s).1 = .ctorCall :: .ctorSettled :: (runRest s).1 := by
        simp [runBuild, habs, hc]
      rw [h1]
      exact shift_two (rest_initSettled_before_deliver s hinit hinitB)
        (by decide) (by decide)

/-- A rejecting deferred setter prevents the init invocation and surfaces
one of the setter rejections as the failure of the whole construction. -/
theorem build_setter_rejection_blocks_init (s : LifecycleSpec)
    (habs : s.abstract = false)
    (hset : ∀ st ∈ s.injects, st.method = true →
      st.behavior = .deferOk ∨ ∃ e, st.behavior = .deferErr e)
    (hcd : s.ctorB = .deferOk)
    (hex : ∃ st ∈ s.injects, st.method = true ∧ ∃ e, st.behavior = .deferErr e) :
    Ev.initCall ∉ (runBuild s).1 ∧
    ∃ e, (runBuild s).2 = .error (.user e) ∧
      ∃ st ∈ s.injects, st.method = true ∧ st.behavior = .deferErr e := by
  have hok : loopOk s.injects = true := loopOk_of_all_deferred _ hset
  rcases hIL : runInjectLoop s.injects with ⟨evs, r⟩
  have hr : r = .ok (pushedOf s.injects) := by
    have := runInjectLoop_ok_of_loopOk _ hok
    rw [hIL] at this
    simpa using this
  subst hr
  have hpushed : ∃ kb ∈ pushedOf s.injects, isDeferErrB kb.2 = true := by
    apply (pushedOf_any_deferErr s.injects).mpr
    obtain ⟨st, hst, hm, e, hb⟩ := hex
    exact ⟨st, hst, hm, by simp [hb, isDeferErrB]⟩
  obtain ⟨e, hjoin, k, hkmem⟩ := runJoin_err _ hpushed
  rcases hJ : runJoin (pushedOf s.injects) with ⟨jevs, jr⟩
  rw [hJ] at hjoin
  have hjr : jr = .error (.user e) := hjoin
  subst hjr
  have h1 : (runBuild s).1 = .ctorCall :: .ctorSettled :: (evs ++ jevs) := by
    simp [runBuild, habs, hcd, runRest, hIL, hJ]
  have h2 : (runBuild s).2 = .error (.user e) := by
    simp [runBuild, habs, hcd, runRest, hIL, hJ]
  constructor
  · rw [h1]
    intro hmem
    rcases List.mem_cons.mp hmem with h | h
    · exact Ev.noConfusion h
    rcases List.mem_cons.mp h with h | h
    · exact Ev.noConfusion h
    rcases List.mem_append.mp h with h | h
    · have := runInjectLoop_events s.injects _ (by rw [hIL]; exact h)
      simp [isInjectBeginEv] at this
    · have := runJoin_events _ _ (by rw [hJ]; exact h)
      simp [isInjectSettledEv] at this
  · exact ⟨e, h2, pushedOf_deferErr_mem hkmem⟩

/-- C3: when the constructor, the setter injections and the init method
all yield deferred values, the compiled procedure (1) has the constructor
value settle before any injection point begins, (2) has every setter
settlement precede the init invocation (the joint wait), (3) delivers the
result only after the init deferred settles, and (4) on a rejecting
deferred setter never invokes init and fails the construction with one of
the setter rejections. -/
theorem C3_deferred_lifecycle_ordering (s : LifecycleSpec)
    (habs : s.abstract = false)
    (hctor : s.ctorB = .deferOk ∨ ∃ e, s.ctorB = .deferErr e)
    (hset : ∀ st ∈ s.injects, st.method = true →
      st.behavior = .deferOk ∨ ∃ e, st.behavior = .deferErr e)
    (hinit : s.hasInit = true)
    (hinitB : s.initB = .deferOk ∨ ∃ e, s.initB = .deferErr e) :
    (∀ j (hj : j < (runBuild s).1.length),
      isInjectBeginEv ((runBuild s).1.get ⟨j, hj⟩) = true →
      ∃ i, ∃ hi : i < (runBuild s).1.length, i < j ∧
        (runBuild s).1.get ⟨i, hi⟩ = .ctorSettled) ∧
    (∀ i j (hi : i < (runBuild s).1.length) (hj : j < (runBuild s).1.length),
      isInjectSettledEv ((runBuild s).1.get ⟨i, hi⟩) = true →
      (runBuild s).1.get ⟨j, hj⟩ = .initCall → i < j) ∧
    (∀ j (hj : j < (runBuild s).1.length),
      (runBuild s).1.get ⟨j, hj⟩ = .deliver →
      ∃ i, ∃ hi : i < (runBuild s).1.length, i < j ∧
        (runBuild s).1.get ⟨i, hi⟩ = .initSettled) ∧
    (s.ctorB = .deferOk →
      (∃ st ∈ s.injects, st.method = true ∧ ∃ e, st.behavior = .deferErr e) →
      Ev.initCall ∉ (runBuild s).1 ∧
      ∃ e, (runBuild s).2 = .error (.user e) ∧
        ∃ st ∈ s.injects, st.method = true ∧ st.behavior = .deferErr e) :=
  ⟨build_ctorSettled_before_inject s,
   fun i j hi hj hsi hcall =>
     (build_precedes_settled_initCall s).lt i j hi hj hsi (by rw [hcall]; rfl),
   build_initSettled_before_deliver s hinit hinitB,
   fun hcd hex => build_setter_rejection_blocks_init s habs hset hcd hex⟩

/-- Witness for C3 at the concrete rejecting-setter lifecycle: init never
runs and the rejection surfaces. -/
theorem C3_witness :
    Ev.initCall ∉ (runBuild setterRejectSpec).1 ∧
      (runBuild setterRejectSpec).2 = .error (.user 3) := by
  refine ⟨?_, by rfl⟩
  have h := C3_deferred_lifecycle_ordering setterRejectSpec rfl (Or.inl rfl)
    (by
      intro st hst hm
      rw [show setterRejectSpec.injects = [⟨"setA", true, .deferErr 3⟩] from rfl,
        List.mem_singleton] at hst
      subst hst
      exact Or.inr ⟨3, rfl⟩) rfl (Or.inl rfl)
  exact (h.2.2.2 rfl ⟨⟨"setA", true, .deferErr 3⟩, by decide, rfl, 3, rfl⟩).1

/-! ## Injection-merge lemmas -/

/-- Elements emitted by the inner merge loop are the constructor's own,
with keys not previously claimed. -/
theorem mergeOwn_elems :
    ∀ (c : Ty) (seen : List Key) (l : List InjectEntry),
      ∀ p ∈ (mergeOwn c seen l).2, p.1 = c ∧ p.2 ∈ l ∧ p.2.key ∉ seen := by
  intro c seen l
  induction l generalizing seen with
  | nil => intro p hp; simp [mergeOwn] at hp
  | cons e rest ih =>
    intro p hp
    by_cases hk : e.key ∈ seen
    · rcases hr : mergeOwn c seen rest with ⟨seen', out⟩
      rw [mergeOwn] at hp
      simp [hk, hr] at hp
      have := ih seen p (by rw [hr]; exact hp)
      exact ⟨this.1, List.mem_cons_of_mem _ this.2.1, this.2.2⟩
    · rcases hr : mergeOwn c (e.key :: seen) rest with ⟨seen', out⟩
      rw [mergeOwn] at hp
      simp [hk, hr] at hp
      rcases hp with rfl | hp
      · exact ⟨rfl, List.mem_cons_self _ _, hk⟩
      · have := ih (e.key :: seen) p (by rw [hr]; exact hp)
        exact ⟨this.1, List.mem_cons_of_mem _ this.2.1, fun hmem => this.2.2 (List.mem_cons_of_mem _ hmem)⟩

/-- The claimed-key set after the inner merge loop is the previous set plus
the constructor's own keys. -/
theorem mergeOwn_seen :
    ∀ (c : Ty) (seen : List Key) (l : List InjectEntry) (k : Key),
      k ∈ (mergeOwn c seen l).1 ↔ k ∈ seen ∨ k ∈ l.map InjectEntry.key := by
  intro c seen l
  induction l generalizing seen with
  | nil => intro k; simp [mergeOwn]
  | cons e rest ih =>
    intro k
    by_cases hk : e.key ∈ seen
    · rcases hr : mergeOwn c seen rest with ⟨seen', out⟩
      rw [mergeOwn]
      simp [hk, hr]
      have := ih seen k
      rw [hr] at this
      simp at this
      rw [this]
      constructor
      · rintro (h | h)
        · exact Or.inl h
        · exact Or.inr (Or.inr h)
      · rintro (h | h | h)
        · exact Or.inl h
        · exact Or.inl (h ▸ hk)
        · exact Or.inr h
    · rcases hr : mergeOwn c (e.key :: seen) rest with ⟨seen', out⟩
      rw [mergeOwn]
      simp [hk, hr]
      have := ih (e.key :: seen) k
      rw [hr] at this
      simp at this
      rw [this]
      tauto

/-- The keys emitted by the inner merge loop are distinct. -/
theorem mergeOwn_nodup :
    ∀ (c : Ty) (seen : List Key) (l : List InjectEntry),
      ((mergeOwn c seen l).2.map (fun p => p.2.key)).Nodup := by
  intro c seen l
  induction l generalizing seen with
  | nil => simp [mergeOwn]
  | cons e rest ih =>
    by_cases hk : e.key ∈ seen
    · rcases hr : mergeOwn c seen rest with ⟨seen', out⟩
      rw [mergeOwn]
      simp [hk, hr]
      have := ih seen
      rw [hr] at this
      exact this
    · rcases hr : mergeOwn c (e.key :: seen) rest with ⟨seen', out⟩
      rw [mergeOwn]
      simp [hk, hr]
      constructor
      · intro a b hp heq
        have := mergeOwn_elems c (e.key :: seen) rest (a, b) (by rw [hr]; exact hp)
        exact this.2.2 (by rw [heq]; exact List.mem_cons_self _ _)
      · have := ih (e.key :: seen)
        rw [hr] at this
        exact this

/-- The compiled injection sequence is the concatenation of its
per-constructor blocks. -/
theorem mergedInjectsFrom_eq_flatten (getData : GetData) :
    ∀ (chain : List Ty) (seen : List Key),
      mergedInjectsFrom getData seen chain
        = (mergedBlocks getData seen chain).flatten := by
  intro chain
  induction chain with
  | nil => intro seen; simp [mergedInjectsFrom, mergedBlocks]
  | cons c rest ih =>
    intro seen
    cases hd : getData c with
    | none => simp [mergedInjectsFrom, mergedBlocks, hd, ih]
    | some data =>
      rcases hm : mergeOwn c seen data.injects with ⟨seen', out⟩
      simp [mergedInjectsFrom, mergedBlocks, hd, hm, ih]

/-- One block per chain element. -/
theorem mergedBlocks_length (getData : GetData) :
    ∀ (chain : List Ty) (seen : List Key),
      (mergedBlocks getData seen chain).length = chain.length := by
  intro chain
  induction chain with
  | nil => intro seen; simp [mergedBlocks]
  | cons c rest ih =>
    intro seen
    cases hd : getData c with
    | none => simp [mergedBlocks, hd, ih]
    | some data =>
      rcases hm : mergeOwn c seen data.injects with ⟨seen', out⟩
      simp [mergedBlocks, hd, hm, ih]

/-- Block `i` holds points declared by (and labelled with) chain element
`i`. -/
theorem mergedBlocks_origin (getData : GetData) :
    ∀ (chain : List Ty) (seen : List Key) (i : Nat) (hi : i < chain.length)
      (hb : i < (mergedBlocks getData seen chain).length),
      ∀ p ∈ (mergedBlocks getData seen chain).get ⟨i, hb⟩,
        p.1 = chain.get ⟨i, hi⟩ ∧
        p.2 ∈ ((getData (chain.get ⟨i, hi⟩)).getD {}).injects := by
  intro chain
  induction chain with
  | nil => intro seen i hi; simp at hi
  | cons c rest ih =>
    intro seen i hi hb p hp
    cases hd : getData c with
    | none =>
      simp [mergedBlocks, hd] at hp
      match i, hi, hb, hp with
      | 0, hi, hb, hp => simp at hp
      | (n + 1), hi, hb, hp =>
        have hi' : n < rest.length := by simpa using hi
        have hb' : n < (mergedBlocks getData seen rest).length := by
          simpa [mergedBlocks_length] using hb
        exact ih seen n hi' hb' p hp
    | some data =>
      rcases hm : mergeOwn c seen data.injects with ⟨seen', out⟩
      simp [mergedBlocks, hd, hm] at hp
      match i, hi, hb, hp with
      | 0, hi, hb, hp =>
        have := mergeOwn_elems c seen data.injects p (by rw [hm]; exact hp)
        exact ⟨this.1, by simp [List.get, hd]; exact this.2.1⟩
      | (n + 1), hi, hb, hp =>
        have hi' : n < rest.length := by simpa using hi
        have hb' : n < (mergedBlocks getData seen' rest).length := by
          simpa [mergedBlocks_length] using hb
        exact ih seen' n hi' hb' p hp

/-- Keys of any block are outside the initially claimed set. -/
theorem mergedBlocks_keys_not_seen (getData : GetData) :
    ∀ (chain : List Ty) (seen : List Key) (j : Nat)
      (hb : j < (mergedBlocks getData seen chain).length),
      ∀ p ∈ (mergedBlocks getData seen chain).get ⟨j, hb⟩, p.2.key ∉ seen := by
  intro chain
  induction chain with
  | nil => intro seen j hb; simp [mergedBlocks] at hb
  | cons c rest ih =>
    intro seen j hb p hp
    cases hd : getData c with
    | none =>
      simp [mergedBlocks, hd] at hp
      match j, hb, hp with
      | 0, hb, hp => simp at hp
      | (n + 1), hb, hp =>
        have hb' : n < (mergedBlocks getData seen rest).length := by
          simpa [mergedBlocks_length] using hb
        exact ih seen n hb' p hp
    | some data =>
      rcases hm : mergeOwn c seen data.injects with ⟨seen', out⟩
      simp [mergedBlocks, hd, hm] at hp
      match j, hb, hp with
      | 0, hb, hp =>
        exact (mergeOwn_elems c seen data.injects p (by rw [hm]; exact hp)).2.2
      | (n + 1), hb, hp =>
        have hb' : n < (mergedBlocks getData seen' rest).length := by
          simpa [mergedBlocks_length] using hb
        intro hmem
        have hseen' : p.2.key ∈ seen' := by
          have := mergeOwn_seen c seen data.injects p.2.key
          rw [hm] at this
          exact this.mpr (Or.inl hmem)
        exact ih seen' n hb' p hp hseen'

/-- Most-derived override: keys of a later block are never declared by an
earlier chain constructor. -/
theorem mergedBlocks_override (getData : GetData) :
    ∀ (chain : List Ty) (seen : List Key) (i j : Nat) (hi : i < chain.length)
      (hbj : j < (mergedBlocks getData seen chain).length),
      i < j →
      ∀ p ∈ (mergedBlocks getData seen chain).get ⟨j, hbj⟩,
        p.2.key ∉ ((getData (chain.get ⟨i, hi⟩)).getD {}).injects.map InjectEntry.key := by
  intro chain
  induction chain with
  | nil => intro seen i j hi; simp at hi
  | cons c rest ih =>
    intro seen i j hi hbj hij p hp
    cases i with
    | zero =>
      -- j ≥ 1: block j of the tail, with the claimed-key set grown by c's keys
      match j, hbj, hp, hij with
      | (m + 1), hbj, hp, _ =>
        cases hd : getData c with
        | none =>
          simp [List.get, hd]
        | some data =>
          rcases hm : mergeOwn c seen data.injects with ⟨seen', out⟩
          simp [mergedBlocks, hd, hm] at hp
          have hb' : m < (mergedBlocks getData seen' rest).length := by
            simpa [mergedBlocks_length] using hbj
          have hnot : p.2.key ∉ seen' := mergedBlocks_keys_not_seen getData rest seen' m hb' p hp
          simp [List.get, hd]
          intro e he heq
          apply hnot
          have := mergeOwn_seen c seen data.injects p.2.key
          rw [hm] at this
          exact this.mpr (Or.inr (by rw [← heq]; exact List.mem_map_of_mem _ he))
    | succ n =>
      match j, hbj, hp, hij with
      | (m + 1), hbj, hp, hij =>
        have hi' : n < rest.length := by simpa using hi
        cases hd : getData c with
        | none =>
          simp [mergedBlocks, hd] at hp
          have hb' : m < (mergedBlocks getData seen rest).length := by
            simpa [mergedBlocks_length] using hbj
          exact ih seen n m hi' hb' (by omega) p hp
        | some data =>
          rcases hm : mergeOwn c seen data.injects with ⟨seen', out⟩
          simp [mergedBlocks, hd, hm] at hp
          have hb' : m < (mergedBlocks getData seen' rest).length := by
            simpa [mergedBlocks_length] using hbj
          exact ih seen' n m hi' hb' (by omega) p hp

/-- All keys of the compiled injection sequence are distinct and outside
the initially claimed set. -/
theorem mergedInjectsFrom_keys_nodup (getData : GetData) :
    ∀ (chain : List Ty) (seen : List Key),
      ((mergedInjectsFrom getData seen chain).map (fun p => p.2.key)).Nodup ∧
      (∀ k ∈ (mergedInjectsFrom getData seen chain).map (fun p => p.2.key), k ∉ seen) := by
  intro chain
  induction chain with
  | nil => intro seen; simp [mergedInjectsFrom]
  | cons c rest ih =>
    intro seen
    cases hd : getData c with
    | none => simpa [mergedInjectsFrom, hd] using ih seen
    | some data =>
      rcases hm : mergeOwn c seen data.injects with ⟨seen', out⟩
      have hsub : ∀ k, k ∈ seen → k ∈ seen' := by
        intro k hk
        have := mergeOwn_seen c seen data.injects k
        rw [hm] at this
        exact this.mpr (Or.inl hk)
      have houtkeys : ∀ k ∈ out.map (fun p => p.2.key), k ∈ seen' := by
        intro k hk
        rw [List.mem_map] at hk
        obtain ⟨p, hp, rfl⟩ := hk
        have := mergeOwn_elems c seen data.injects p (by rw [hm]; exact hp)
        have hmem := mergeOwn_seen c seen data.injects p.2.key
        rw [hm] at hmem
        exact hmem.mpr (Or.inr (List.mem_map_of_mem _ this.2.1))
      have hout_nodup : (out.map (fun p => p.2.key)).Nodup := by
        have := mergeOwn_nodup c seen data.injects
        rw [hm] at this
        exact this
      have hout_not_seen : ∀ k ∈ out.map (fun p => p.2.key), k ∉ seen := by
        intro k hk
        rw [List.mem_map] at hk
        obtain ⟨p, hp, rfl⟩ := hk
        exact (mergeOwn_elems c seen data.injects p (by rw [hm]; exact hp)).2.2
      obtain ⟨hrest_nodup, hrest_not⟩ := ih seen'
      constructor
      · rw [mergedInjectsFrom]
        simp only [hd, hm]
        rw [List.map_append, List.nodup_append]
        refine ⟨hout_nodup, hrest_nodup, ?_⟩
        intro k hk hk'
        exact hrest_not k hk' (houtkeys k hk)
      · intro k hk hkseen
        rw [mergedInjectsFrom] at hk
        simp only [hd, hm] at hk
        rw [List.map_append, List.mem_append] at hk
        rcases hk with hk | hk
        · exact hout_not_seen k hk hkseen
        · exact hrest_not k hk (hsub k hkseen)

/-- With all-synchronous behaviors, the injection loop performs exactly the
compiled sequence, in order. -/
theorem runInjectLoop_sync_trace :
    ∀ l : List (Ty × InjectEntry),
      (runInjectLoop (l.map fun p => ⟨p.2.key, p.2.method, .sync⟩)).1
        = l.map fun p => if p.2.method then Ev.injectCall p.2.key else Ev.injectProp p.2.key := by
  intro l
  induction l with
  | nil => simp [runInjectLoop]
  | cons p rest ih =>
    rcases hrest : runInjectLoop (rest.map fun p => ⟨p.2.key, p.2.method, .sync⟩) with ⟨evs, r⟩
    by_cases hm : p.2.method
    · simp [runInjectLoop, hm, hrest]
      rw [hrest] at ih
      exact ih
    · simp [runInjectLoop, hm, hrest]
      rw [hrest] at ih
      exact ih

/-- C4 (counterexample): for subclass `C = 0` (property key `"c"`)
extending base `B = 1` (property key `"b"`), the compiled procedure
performs the subclass's own injection *before* the inherited one — the
trace shows `"c"` fired first — contradicting ancestors-before-declaring
order. -/
theorem C4_counterexample_subclass_injects_first :
    (runBuild { injects := injectStagesOf inheritGetData [0, 1] fun _ _ => .sync }).1
      = [.ctorCall, .ctorSettled, .injectProp "c", .injectProp "b", .deliver] ∧
    (runBuild { injects := injectStagesOf inheritGetData [0, 1] fun _ _ => .sync }).1
      ≠ [.ctorCall, .ctorSettled, .injectProp "b", .injectProp "c", .deliver] :=
  ⟨rfl, by decide⟩

/-- C4 (amended): the compiled construction procedure performs the
injection points in *reverse* hierarchy order — the declaring type's own
points first, then each ancestor's, most derived first — with same-key
overrides applied so each key fires exactly once using the most-derived
definition: the sequence decomposes into per-constructor blocks in chain
order, block `i` holding only points declared by chain element `i`, later
blocks never reusing a key declared by an earlier (more derived)
constructor, all fired keys distinct, and with all-synchronous behaviors
the injection events occur exactly in this sequence order. -/
theorem C4_amended_injection_order (getData : GetData) (chain : List Ty) :
    mergedInjects getData chain = (mergedBlocks getData [] chain).flatten ∧
    (mergedBlocks getData [] chain).length = chain.length ∧
    (∀ i (hi : i < chain.length) (hb : i < (mergedBlocks getData [] chain).length),
      ∀ p ∈ (mergedBlocks getData [] chain).get ⟨i, hb⟩,
        p.1 = chain.get ⟨i, hi⟩ ∧
        p.2 ∈ ((getData (chain.get ⟨i, hi⟩)).getD {}).injects) ∧
    (∀ i j (hi : i < chain.length) (hbj : j < (mergedBlocks getData [] chain).length),
      i < j →
      ∀ p ∈ (mergedBlocks getData [] chain).get ⟨j, hbj⟩,
        p.2.key ∉ ((getData (chain.get ⟨i, hi⟩)).getD {}).injects.map InjectEntry.key) ∧
    ((mergedInjects getData chain).map (fun p => p.2.key)).Nodup ∧
    (runInjectLoop (injectStagesOf getData chain fun _ _ => .sync)).1
      = (mergedInjects getData chain).map
          (fun p => if p.2.method then Ev.injectCall p.2.key else Ev.injectProp p.2.key) :=
  ⟨mergedInjectsFrom_eq_flatten getData chain [],
   mergedBlocks_length getData chain [],
   fun i hi hb => mergedBlocks_origin getData chain [] i hi hb,
   fun i j hi hbj hij => mergedBlocks_override getData chain [] i j hi hbj hij,
   (mergedInjectsFrom_keys_nodup getData chain []).1,
   runInjectLoop_sync_trace (mergedInjects getData chain)⟩

/-- Witness for the amended C4 at the concrete two-level hierarchy. -/
theorem C4_amended_witness :
    mergedInjects inheritGetData [0, 1]
      = [(0, ⟨"c", .tref 5, false⟩), (1, ⟨"b", .tref 5, false⟩)] ∧
    mergedInjects inheritGetData [0, 1]
      = (mergedBlocks inheritGetData [] [0, 1]).flatten :=
  ⟨rfl, (C4_amended_injection_order inheritGetData [0, 1]).1⟩

/-- Witness for C9 at a concrete store: an empty store, type `0`, key
`"m"` that is no prototype function. -/
theorem C9_witness :
    (declareAbstract ⟨fun _ _ => false⟩ ⟨[]⟩ 0 (some "m")).error
      = some .invalidAbstractTarget ∧
    constructType ⟨(declareAbstract ⟨fun _ _ => false⟩ ⟨[]⟩ 0 (some "m")).state.getData,
        fun _ => none, fun _ => none⟩ 3 0
      = ([], some (.error (.abstractInstantiation 0))) :=
  ⟨(C9_failed_declareAbstract_leaves_type_abstract ⟨fun _ _ => false⟩ ⟨[]⟩ 0 "m" rfl).1,
   rfl⟩

end Depend
